import Mathlib

/-!
Verification of the Sudoku board generator (`src/main.py`).

The program is embedded shallowly:

* A Python board (`list` of `list`s, cells `None` or an `int`) becomes
  `Board := List (List (Option Nat))`.
* Python list indexing `board[y]` can raise `IndexError`; the embedding
  models that with checked access (`l[i]?`), and a raised error surfaces
  as `SearchResult.indexError`.
* The recursion of `complete_board` is modelled with explicit fuel, one
  unit per stack frame; running out of fuel is the distinct outcome
  `SearchResult.fuelOut`, so stack-depth claims become fuel claims.
* `random.shuffle` consults a global PRNG.  It is modelled by a function
  `rng : Board → Nat → Nat → List Nat → List Nat` applied to the current
  board state, the current cell `(x, y)` and the candidate list.  Every
  execution of the Python program corresponds to one such function
  (distinct shuffle calls in a run happen at distinct `(board, x, y)`
  states, since re-entering a cell requires an ancestor cell to have
  changed), and theorems quantify over all `rng` whose output is a
  permutation of its input, which is exactly the guarantee of
  `random.shuffle`.
* A Python set of small naturals (`set(xrange(n))` with elements
  discarded) iterates in ascending numeric order; the candidate set is
  therefore represented as the ascending list of the surviving values.
-/

/-- A board cell: `none` is Python's `None` (unassigned). -/
abbrev Cell := Option Nat

/-- A board: list of rows, each a list of cells (`board[y][x]`). -/
abbrev Board := List (List Cell)

/-- Read cell `(x, y)` (column `x` of row `y`); out-of-range reads give
`none`.  (All reads performed by the program are range-checked
separately via `candidates_for`.) -/
def getCell (b : Board) (x y : Nat) : Cell :=
  (b.getD y []).getD x none

/-- The Python statement `board[y][x] = v` (in-place row update). -/
def setCell (b : Board) (x y : Nat) (v : Cell) : Board :=
  b.set y ((b.getD y []).set x v)

/-- `candidates_for(board, n, dimension, x, y)` from `src/main.py`
lines 10–34.  Starts from `set(xrange(n))`, discards the values of row
`y`, of column `x` and of the `dimension × dimension` box containing
`(x, y)`, and the surviving set iterates in ascending order.  Checked
accesses mirror Python's `IndexError`: `board[y]` first, then `row[x]`
for every row, then the box reads row by row (`none` = an `IndexError`
was raised).  The Python box loop reuses the names `x`, `y` for its
loop variables; that rebinding happens after the row/column passes and
does not affect the returned set. -/
def candidates_for (board : Board) (n dimension x y : Nat) :
    Option (List Nat) := do
  let rowY ← board[y]?
  let colVals ← board.mapM (fun row => row[x]?)
  let boxX := x / dimension
  let boxY := y / dimension
  let boxRows ← (List.range' (boxY * dimension) dimension).mapM
    (fun yy => board[yy]?)
  let boxVals ← boxRows.mapM (fun row =>
    (List.range' (boxX * dimension) dimension).mapM (fun xx => row[xx]?))
  return (List.range n).filter (fun v =>
    decide (some v ∉ rowY) && decide (some v ∉ colVals) &&
      decide (some v ∉ boxVals.flatten))

/-- `next_slot(n, x, y)` from `src/main.py` lines 36–45: row-major
successor.  (In Python `n - 1` is `-1` when `n = 0`; here `0 - 1 = 0`.
`next_slot` is only ever reached for `n ≥ 1`, because for `n = 0` the
empty board makes `candidates_for` raise first.) -/
def next_slot (n x y : Nat) : Nat × Nat :=
  if x = n - 1 then (0, y + 1) else (x + 1, y)

/-- Outcome of `complete_board`: a completed board (Python: returns the
board), failure (Python: returns `None`; the board argument records the
state of the destructively mutated board object at that moment), an
uncaught `IndexError`, or fuel exhaustion (a modelling artefact
standing for unbounded recursion depth). -/
inductive SearchResult where
  | ok (b : Board)
  | fail (b : Board)
  | indexError
  | fuelOut
deriving DecidableEq

/-- The type of the shuffle model: given the current board, the current
cell `(x, y)` and the candidate list, produce the order in which
candidates are tried.  `random.shuffle` always produces a permutation
of its input. -/
abbrev Rng := Board → Nat → Nat → List Nat → List Nat

/-- The `for val in candidates:` loop of `complete_board`
(`src/main.py` lines 57–75), parameterised by the action `recur` of
the recursive call on line 65: assign `board[y][x] = val`; if the slot
after `(x, y)` is past the last row, return the board; otherwise run
`recur` on the next slot, and on failure reset `board[y][x] = None`
(the failing call hands back the mutated board object) and try the
next candidate.  When the loop exhausts its candidates it returns
`None`, the board object being left in its current state. -/
def complete_board_loop (recur : Board → Nat → Nat → SearchResult)
    (n x y : Nat) : Board → List Nat → SearchResult
  | board, [] => .fail board
  | board, val :: rest =>
    let board1 := setCell board x y (some val)
    let next := next_slot n x y
    if n ≤ next.2 then .ok board1
    else
      match recur board1 next.1 next.2 with
      | .ok c => .ok c
      | .fail b2 => complete_board_loop recur n x y (setCell b2 x y none) rest
      | .indexError => .indexError
      | .fuelOut => .fuelOut

/-- `complete_board(board, n, dimension, x, y, shuffle=True)` from
`src/main.py` lines 47–75.  Computes the candidates (propagating an
`IndexError`), shuffles them when `shuffle` is set, and runs the
candidate loop.  NOTE: the Python recursive call on line 65 omits the
`shuffle` keyword, so the recursion always uses the default
`shuffle=True`; the embedding reproduces that by passing `true` below.
The fuel counts stack frames: each recursive call gets one unit less,
so `fuel` bounds the recursion depth, and `.fuelOut` reports the
(never-observed-in-Python) event of the depth exceeding the fuel. -/
def complete_board (rng : Rng) :
    Nat → Board → Nat → Nat → Nat → Nat → Bool → SearchResult
  | 0, _, _, _, _, _, _ => .fuelOut
  | fuel + 1, board, n, dimension, x, y, shuffle =>
    match candidates_for board n dimension x y with
    | none => .indexError
    | some cands =>
      let cands := if shuffle then rng board x y cands else cands
      complete_board_loop
        (fun b nx ny => complete_board rng fuel b n dimension nx ny true)
        n x y board cands

/-- `generate_board(dimension, shuffle)` from `src/main.py` lines
77–87: build the `n × n` board of `None`s, `n = dimension ** 2`, and
call `complete_board` from `(0, 0)`.  The fuel `n * n + 1` covers the
maximal recursion depth (one frame per cell, plus the first frame which
exists even when `n = 0`). -/
def generate_board (rng : Rng) (dimension : Nat) (shuffle : Bool) :
    SearchResult :=
  let n := dimension ^ 2
  let emptyBoard : Board := List.replicate n (List.replicate n none)
  complete_board rng (n * n + 1) emptyBoard n dimension 0 0 shuffle

/-- The identity shuffle model (one possible PRNG behaviour). -/
def rngId : Rng := fun _ _ _ l => l

/-- The reversing shuffle model (another possible PRNG behaviour:
reversal is a permutation). -/
def rngRev : Rng := fun _ _ _ l => l.reverse


/-! ### Well-formedness and basic cell lemmas -/
/-- A board of `generate_board`'s advertised shape: `n` rows, each of
length `n`. -/
def wfBoard (b : Board) (n : Nat) : Prop :=
  b.length = n ∧ ∀ row ∈ b, row.length = n

/-- Value `v` occurs (as an assigned cell) somewhere in row `y`. -/
def usedInRow (b : Board) (n v y : Nat) : Prop :=
  ∃ x, x < n ∧ getCell b x y = some v

/-- Value `v` occurs (as an assigned cell) somewhere in column `x`. -/
def usedInCol (b : Board) (n v x : Nat) : Prop :=
  ∃ y, y < n ∧ getCell b x y = some v

/-- Value `v` occurs in the `dimension × dimension` block containing
`(x, y)`: the block at `block_x = x / d`, `block_y = y / d`, spanning
rows `[block_y*d, (block_y+1)*d)` and columns
`[block_x*d, (block_x+1)*d)`. -/
def usedInBox (b : Board) (d v x y : Nat) : Prop :=
  ∃ yy xx, (y / d) * d ≤ yy ∧ yy < (y / d + 1) * d ∧
    (x / d) * d ≤ xx ∧ xx < (x / d + 1) * d ∧ getCell b xx yy = some v

/-- A sample partially-filled well-formed 4×4 board (dimension 2). -/
def sampleBoard : Board :=
  [[some 0, some 1, none, none],
   [none, none, some 2, none],
   [none, none, none, none],
   [none, none, none, none]]

/-- A run ended normally: a completed board or a backtracking failure,
both with a well-formed board. -/
def okOrFail (n : Nat) (r : SearchResult) : Prop :=
  (∃ b, r = .ok b ∧ wfBoard b n) ∨ (∃ b, r = .fail b ∧ wfBoard b n)

/-- Cells from slot `(x, y)` onward in row-major order are all
unassigned. -/
def suffixNone (b : Board) (n x y : Nat) : Prop :=
  ∀ i, i < n → ∀ j, j < n → y * n + x ≤ j * n + i → getCell b i j = none

instance decSuffixNone (b : Board) (n x y : Nat) :
    Decidable (suffixNone b n x y) := by
  unfold suffixNone
  infer_instance

/-- A 4×4 board whose filled prefix makes slot `(2, 1)` a dead end:
every value 0–3 already occurs in that slot's row, column or block, so
the search fails there at once. -/
def deadEndBoard : Board :=
  [[some 0, some 1, some 2, some 3],
   [some 0, some 1, none, none],
   [none, none, none, none],
   [none, none, none, none]]

/-! ### Frame property: a call writes only its own slot and later ones -/
/-- The board carried by a normal outcome (completed board on `.ok`,
the mutated board object on `.fail`); `none` for an error outcome. -/
def resultBoard : SearchResult → Option Board
  | .ok b => some b
  | .fail b => some b
  | .indexError => none
  | .fuelOut => none

/-- The prefix of slot `(x, y)` in row-major order is fully
assigned. -/
def assignedBefore (b : Board) (n x y : Nat) : Prop :=
  ∀ i, i < n → ∀ j, j < n → j * n + i < y * n + x → getCell b i j ≠ none

instance decAssignedBefore (b : Board) (n x y : Nat) :
    Decidable (assignedBefore b n x y) := by
  unfold assignedBefore
  infer_instance

/-- A 4×4 board with row 0 assigned and the rest unassigned: the state
of a run at the start of row 1. -/
def rowOneBoard : Board :=
  [[some 0, some 1, some 2, some 3],
   [none, none, none, none],
   [none, none, none, none],
   [none, none, none, none]]

/-- No assigned value occurs twice in any row. -/
def rowsValid (b : Board) (n : Nat) : Prop :=
  ∀ j, j < n → ∀ i1, i1 < n → ∀ i2, i2 < n →
    getCell b i1 j ≠ none → getCell b i1 j = getCell b i2 j → i1 = i2

/-- No assigned value occurs twice in any column. -/
def colsValid (b : Board) (n : Nat) : Prop :=
  ∀ i, i < n → ∀ j1, j1 < n → ∀ j2, j2 < n →
    getCell b i j1 ≠ none → getCell b i j1 = getCell b i j2 → j1 = j2

/-- No assigned value occurs twice in any `d × d` block (two cells of
the same block with the same assigned value coincide). -/
def boxesValid (b : Board) (n d : Nat) : Prop :=
  ∀ i1, i1 < n → ∀ j1, j1 < n → ∀ i2, i2 < n → ∀ j2, j2 < n →
    i1 / d = i2 / d → j1 / d = j2 / d →
    getCell b i1 j1 ≠ none → getCell b i1 j1 = getCell b i2 j2 →
    i1 = i2 ∧ j1 = j2

/-- Partial Sudoku validity: no row, column or block contains the same
assigned value twice. -/
def validSoFar (b : Board) (n d : Nat) : Prop :=
  rowsValid b n ∧ colsValid b n ∧ boxesValid b n d

instance decRowsValid (b : Board) (n : Nat) : Decidable (rowsValid b n) :=
  @Nat.decidableBallLT n _ (fun _ _ => @Nat.decidableBallLT n _
    (fun _ _ => @Nat.decidableBallLT n _ (fun _ _ => inferInstance)))

instance decColsValid (b : Board) (n : Nat) : Decidable (colsValid b n) :=
  @Nat.decidableBallLT n _ (fun _ _ => @Nat.decidableBallLT n _
    (fun _ _ => @Nat.decidableBallLT n _ (fun _ _ => inferInstance)))

instance decBoxesValid (b : Board) (n d : Nat) :
    Decidable (boxesValid b n d) :=
  @Nat.decidableBallLT n _ (fun _ _ => @Nat.decidableBallLT n _
    (fun _ _ => @Nat.decidableBallLT n _ (fun _ _ =>
      @Nat.decidableBallLT n _ (fun _ _ => inferInstance))))

instance decValidSoFar (b : Board) (n d : Nat) :
    Decidable (validSoFar b n d) := by
  unfold validSoFar
  infer_instance

/-- One step of the backtracking search (`src/main.py` lines 52 and
57–59): at slot `(x, y)` the engine computes the candidate set and
writes one of its members `v` into the cell (`board[y][x] = val`),
moving on to the row-major successor slot.  Shuffling only permutes
the candidate list (`random.shuffle` is a permutation), so whatever
the PRNG does, the values a run can write are exactly the members of
the candidate set: every board state occurring during any run of
`complete_board` started on the empty board is reachable by these
steps. -/
inductive SearchStep (n d : Nat) :
    Board × Nat × Nat → Board × Nat × Nat → Prop where
  | write {b : Board} {x y v : Nat} {l : List Nat}
      (hc : candidates_for b n d x y = some l) (hv : v ∈ l) :
      SearchStep n d (b, x, y)
        (setCell b x y (some v), (next_slot n x y).1, (next_slot n x y).2)

/-- All assigned values of the board are legal Sudoku values, i.e.
less than `n`. -/
def cellsInRange (b : Board) (n : Nat) : Prop :=
  ∀ i, i < n → ∀ j, j < n → ∀ v, getCell b i j = some v → v < n

/-- `c` is a complete, valid, in-range board agreeing with `b` on all
assigned cells of `b`. -/
def solutionOf (c b : Board) (n d : Nat) : Prop :=
  wfBoard c n ∧ validSoFar c n d ∧
    (∀ i, i < n → ∀ j, j < n → ∃ v, v < n ∧ getCell c i j = some v) ∧
    (∀ i, i < n → ∀ j, j < n → getCell b i j ≠ none →
      getCell c i j = getCell b i j)

/-! ### An explicit solution of the empty board -/
/-- The standard valid Sudoku filling: cell `(i, j)` (column `i`, row
`j`) holds `(d * (j % d) + j / d + i) % n`: rows shift by `d` within a
band and by one across bands. -/
def patternBoard (n d : Nat) : Board :=
  (List.range n).map (fun j =>
    (List.range n).map (fun i => some ((d * (j % d) + j / d + i) % n)))

/-- A fully valid Sudoku board: `n` rows of `n` cells, every cell
assigned an in-range value, every row, every column and every `d × d`
block containing each value of `{0, …, n-1}` at least once (the
existence clauses) and at most once (`validSoFar`): i.e. exactly
once, with no unassigned cells. -/
def fullSudoku (b : Board) (n d : Nat) : Prop :=
  wfBoard b n ∧
  (∀ i, i < n → ∀ j, j < n → ∃ v, v < n ∧ getCell b i j = some v) ∧
  (∀ j, j < n → ∀ v, v < n → ∃ i, i < n ∧ getCell b i j = some v) ∧
  (∀ i, i < n → ∀ v, v < n → ∃ j, j < n ∧ getCell b i j = some v) ∧
  (∀ bi, bi < d → ∀ bj, bj < d → ∀ v, v < n →
    ∃ i j, i < d ∧ j < d ∧ getCell b (bi * d + i) (bj * d + j) = some v) ∧
  validSoFar b n d

/-! ### Formatting (`format_board`, src/main.py lines 89–94) -/
/-- `int(math.ceil(math.log10(dimension ** 2)))` (line 91), modelled
exactly over ℕ: for `m ≥ 1`, `Nat.clog 10 m` is the mathematical
`⌈log₁₀ m⌉`, which is what the float computation produces for every
representable square (`math.log10` is exact on powers of ten and
correctly rounded elsewhere, and no square is close enough to a power
of ten for the ceiling to flip).  For dimension 0 Python would raise a
domain error, but `format_board` is only reached on a successful
generation, which never happens at dimension 0. -/
def value_length (dimension : Nat) : Nat :=
  Nat.clog 10 (dimension ^ 2)

/-- Python's `str.rjust`: left-pad with spaces to width `w`. -/
def rjust (s : String) (w : Nat) : String :=
  String.mk (List.replicate (w - s.length) ' ') ++ s

/-- Python's `str(val)` on a cell: a numeral, or `"None"` for an
unassigned cell. -/
def cellStr : Cell → String
  | some v => toString v
  | none => "None"

/-- Python's `sep.join(parts)` (line 94). -/
def joinSep (sep : String) : List String → String
  | [] => ""
  | [a] => a
  | a :: rest => a ++ sep ++ joinSep sep rest

/-- `format_board(board, dimension)` from `src/main.py` lines 89–94:
one bracketed row per line, each value right-justified to
`value_length dimension` characters, values separated by a comma and a
space. -/
def format_board (board : Board) (dimension : Nat) : String :=
  joinSep "\n" (board.map (fun row =>
    "[" ++ joinSep ", " (row.map (fun val =>
      rjust (cellStr val) (value_length dimension))) ++ "]"))

/-- The spec's description of the rendering (§6: a right-aligned,
fixed-width grid, one bracketed row per line), with the column width
`w` a parameter; the claim states `w` = number of decimal digits of
`N`. -/
def renderGrid (w : Nat) (board : Board) : String :=
  joinSep "\n" (board.map (fun row =>
    "[" ++ joinSep ", " (row.map (fun val => rjust (cellStr val) w)) ++ "]"))

/-- The board `generate_board rngId 2 false` produces (used as the
concrete instance for the formatting claims). -/
def demoBoard : Board :=
  [[some 0, some 1, some 2, some 3],
   [some 2, some 3, some 0, some 1],
   [some 1, some 0, some 3, some 2],
   [some 3, some 2, some 1, some 0]]

theorem wfBoard_length {b : Board} {n : Nat} (h : wfBoard b n) :
    b.length = n := h.1

theorem wfBoard_row_length {b : Board} {n y : Nat} (h : wfBoard b n)
    (hy : y < n) : (b.getD y []).length = n := by
  apply h.2
  have : y < b.length := by rw [h.1]; exact hy
  rw [List.getD_eq_getElem?_getD, List.getElem?_eq_getElem this]
  exact List.getElem_mem this

theorem wfBoard_setCell {b : Board} {n x y : Nat} (h : wfBoard b n)
    (v : Cell) : wfBoard (setCell b x y v) n := by
  constructor
  · rw [setCell, List.length_set, h.1]
  · intro row hrow
    by_cases hyb : y < b.length
    · rcases List.mem_or_eq_of_mem_set hrow with h1 | h1
      · exact h.2 row h1
      · subst h1
        rw [List.length_set]
        rw [h.1] at hyb
        exact wfBoard_row_length h hyb
    · rw [setCell, List.set_eq_of_length_le (by omega)] at hrow
      exact h.2 row hrow

theorem getD_set_self {α : Type} (l : List α) (i : Nat) (v d : α)
    (h : i < l.length) : (l.set i v).getD i d = v := by
  rw [List.getD_eq_getElem?_getD, List.getElem?_set_self h]
  rfl

theorem getD_set_ne {α : Type} (l : List α) (i j : Nat) (v d : α)
    (h : i ≠ j) : (l.set i v).getD j d = l.getD j d := by
  rw [List.getD_eq_getElem?_getD, List.getElem?_set_ne h,
    List.getD_eq_getElem?_getD]

theorem getCell_setCell_self {b : Board} {n x y : Nat} (h : wfBoard b n)
    (hx : x < n) (hy : y < n) (v : Cell) :
    getCell (setCell b x y v) x y = v := by
  have hyb : y < b.length := by rw [h.1]; exact hy
  have hxr : x < (b.getD y []).length := by rw [wfBoard_row_length h hy]; exact hx
  unfold getCell setCell
  rw [getD_set_self _ _ _ _ hyb]
  exact getD_set_self _ _ _ _ hxr

theorem getCell_setCell_ne {b : Board} {x y x' y' : Nat} (v : Cell)
    (h : x ≠ x' ∨ y ≠ y') :
    getCell (setCell b x y v) x' y' = getCell b x' y' := by
  by_cases hyy : y = y'
  · subst hyy
    rcases h with h | h
    · by_cases hyb : y < b.length
      · unfold getCell setCell
        rw [getD_set_self _ _ _ _ hyb, getD_set_ne _ _ _ _ _ h]
      · unfold getCell setCell
        rw [List.set_eq_of_length_le (by omega)]
    · exact absurd rfl h
  · unfold getCell setCell
    rw [getD_set_ne _ _ _ _ _ hyy]


/-! ### Evaluating `candidates_for` on well-formed boards -/
theorem mapM_option_eq_some_map {α β : Type} (f : α → Option β)
    (g : α → β) (l : List α) (h : ∀ a ∈ l, f a = some (g a)) :
    l.mapM f = some (l.map g) := by
  induction l with
  | nil => rfl
  | cons a l ih =>
    rw [List.mapM_cons, h a (List.mem_cons_self a l),
      ih (fun a ha => h a (List.mem_cons_of_mem _ ha))]
    rfl

theorem getD_eq_of_lt {α : Type} (l : List α) (d : α) {i : Nat}
    (h : i < l.length) : l.getD i d = l[i] := by
  rw [List.getD_eq_getElem?_getD, List.getElem?_eq_getElem h]
  rfl

/-- With all four checked accesses succeeding, `candidates_for`
computes the ascending filter of `List.range n`. -/
theorem candidates_for_eval {b : Board} {n d x y : Nat} {r cv : List Cell}
    {br bv : List (List Cell)}
    (h1 : b[y]? = some r)
    (h2 : b.mapM (fun row => row[x]?) = some cv)
    (h3 : (List.range' (y / d * d) d).mapM (fun yy => b[yy]?) = some br)
    (h4 : br.mapM (fun row =>
      (List.range' (x / d * d) d).mapM (fun xx => row[xx]?)) = some bv) :
    candidates_for b n d x y = some ((List.range n).filter (fun v =>
      decide (some v ∉ r) && decide (some v ∉ cv) &&
        decide (some v ∉ bv.flatten))) := by
  unfold candidates_for
  simp only [h1, h2, h3, h4, Option.bind_eq_bind, Option.some_bind,
    Option.pure_def]

/-- Characterisation of `candidates_for` on a well-formed board of side
`n = d * d`: the checked accesses all succeed, and the returned set is
exactly `{0, …, n-1}` minus the values used in row `y`, column `x` and
the `d × d` block containing `(x, y)`. -/
theorem candidates_for_char {b : Board} {n d x y : Nat}
    (hn : n = d * d) (hw : wfBoard b n) (hx : x < n) (hy : y < n) :
    ∃ l, candidates_for b n d x y = some l ∧
      ∀ v, v ∈ l ↔ v < n ∧ ¬usedInRow b n v y ∧ ¬usedInCol b n v x ∧
        ¬usedInBox b d v x y := by
  have hd : 0 < d := by
    rcases Nat.eq_zero_or_pos d with h | h
    · subst h
      rw [Nat.mul_zero] at hn
      omega
    · exact h
  have hyb : y < b.length := by rw [hw.1]; exact hy
  have hydd : y / d < d := (Nat.div_lt_iff_lt_mul hd).mpr (by omega)
  have hxdd : x / d < d := (Nat.div_lt_iff_lt_mul hd).mpr (by omega)
  have hrowlen : (b.getD y []).length = n := wfBoard_row_length hw hy
  have h1 : b[y]? = some (b.getD y []) := by
    rw [List.getElem?_eq_getElem hyb, getD_eq_of_lt _ _ hyb]
  have h2 : b.mapM (fun row => row[x]?)
      = some (b.map (fun row => row.getD x none)) := by
    apply mapM_option_eq_some_map
    intro row hrow
    have hl : row.length = n := hw.2 row hrow
    have hxl : x < row.length := by omega
    rw [List.getElem?_eq_getElem hxl, getD_eq_of_lt _ _ hxl]
  have hbndy : ∀ yy ∈ List.range' (y / d * d) d, yy < n := by
    intro yy hyy
    rw [List.mem_range'_1] at hyy
    have hle : (y / d + 1) * d ≤ d * d := Nat.mul_le_mul_right d (by omega)
    have heq : (y / d + 1) * d = y / d * d + d := Nat.succ_mul _ _
    omega
  have hbndx : ∀ xx ∈ List.range' (x / d * d) d, xx < n := by
    intro xx hxx
    rw [List.mem_range'_1] at hxx
    have hle : (x / d + 1) * d ≤ d * d := Nat.mul_le_mul_right d (by omega)
    have heq : (x / d + 1) * d = x / d * d + d := Nat.succ_mul _ _
    omega
  have h3 : (List.range' (y / d * d) d).mapM (fun yy => b[yy]?)
      = some ((List.range' (y / d * d) d).map (fun yy => b.getD yy [])) := by
    apply mapM_option_eq_some_map
    intro yy hyy
    have : yy < b.length := by rw [hw.1]; exact hbndy yy hyy
    rw [List.getElem?_eq_getElem this, getD_eq_of_lt _ _ this]
  have h4 : ((List.range' (y / d * d) d).map (fun yy => b.getD yy [])).mapM
      (fun row => (List.range' (x / d * d) d).mapM (fun xx => row[xx]?))
      = some (((List.range' (y / d * d) d).map (fun yy => b.getD yy [])).map
        (fun row => (List.range' (x / d * d) d).map
          (fun xx => row.getD xx none))) := by
    apply mapM_option_eq_some_map
    intro row hrow
    rcases List.mem_map.mp hrow with ⟨yy, hyy, rfl⟩
    have hrl : (b.getD yy []).length = n := wfBoard_row_length hw (hbndy yy hyy)
    apply mapM_option_eq_some_map
    intro xx hxx
    have : xx < (b.getD yy []).length := by rw [hrl]; exact hbndx xx hxx
    rw [List.getElem?_eq_getElem this, getD_eq_of_lt _ _ this]
  refine ⟨_, candidates_for_eval h1 h2 h3 h4, ?_⟩
  have rowIff : ∀ v : Nat, some v ∈ b.getD y [] ↔ usedInRow b n v y := by
    intro v
    rw [List.mem_iff_getElem]
    constructor
    · rintro ⟨i, hi, hget⟩
      refine ⟨i, by omega, ?_⟩
      show (b.getD y []).getD i none = some v
      rw [getD_eq_of_lt _ _ hi, hget]
    · rintro ⟨i, hi, hget⟩
      have hi' : i < (b.getD y []).length := by omega
      refine ⟨i, hi', ?_⟩
      have : (b.getD y []).getD i none = some v := hget
      rwa [getD_eq_of_lt _ _ hi'] at this
  have colIff : ∀ v : Nat,
      some v ∈ b.map (fun row => row.getD x none) ↔ usedInCol b n v x := by
    intro v
    rw [List.mem_map]
    constructor
    · rintro ⟨row, hrow, heq⟩
      rcases List.mem_iff_getElem.mp hrow with ⟨j, hj, rfl⟩
      refine ⟨j, by rw [← hw.1]; exact hj, ?_⟩
      show (b.getD j []).getD x none = some v
      rw [getD_eq_of_lt _ _ hj]
      exact heq
    · rintro ⟨j, hj, hget⟩
      have hj' : j < b.length := by rw [hw.1]; exact hj
      refine ⟨b[j], List.getElem_mem hj', ?_⟩
      have : (b.getD j []).getD x none = some v := hget
      rwa [getD_eq_of_lt _ _ hj'] at this
  have boxIff : ∀ v : Nat,
      some v ∈ (((List.range' (y / d * d) d).map (fun yy => b.getD yy [])).map
        (fun row => (List.range' (x / d * d) d).map
          (fun xx => row.getD xx none))).flatten ↔ usedInBox b d v x y := by
    intro v
    rw [List.mem_flatten]
    have hsy : (y / d + 1) * d = y / d * d + d := Nat.succ_mul _ _
    have hsx : (x / d + 1) * d = x / d * d + d := Nat.succ_mul _ _
    constructor
    · rintro ⟨inner, hinner, hv⟩
      rw [List.map_map, List.mem_map] at hinner
      rcases hinner with ⟨yy, hyy, rfl⟩
      rcases List.mem_map.mp hv with ⟨xx, hxx, heq⟩
      rw [List.mem_range'_1] at hyy hxx
      exact ⟨yy, xx, hyy.1, by omega, hxx.1, by omega, heq⟩
    · rintro ⟨yy, xx, hy1, hy2, hx1, hx2, hget⟩
      have hyy : yy ∈ List.range' (y / d * d) d :=
        List.mem_range'_1.mpr ⟨hy1, by omega⟩
      have hxx : xx ∈ List.range' (x / d * d) d :=
        List.mem_range'_1.mpr ⟨hx1, by omega⟩
      refine ⟨(List.range' (x / d * d) d).map
        (fun xx => (b.getD yy []).getD xx none), ?_, ?_⟩
      · rw [List.map_map]
        exact List.mem_map_of_mem _ hyy
      · exact List.mem_map.mpr ⟨xx, hxx, hget⟩
  intro v
  rw [List.mem_filter, List.mem_range]
  simp only [Bool.and_eq_true, decide_eq_true_eq]
  constructor
  · rintro ⟨hv, ⟨hr, hc⟩, hb⟩
    exact ⟨hv, fun h => hr ((rowIff v).mpr h), fun h => hc ((colIff v).mpr h),
      fun h => hb ((boxIff v).mpr h)⟩
  · rintro ⟨hv, hr, hc, hb⟩
    exact ⟨hv, ⟨fun h => hr ((rowIff v).mp h), fun h => hc ((colIff v).mp h)⟩,
      fun h => hb ((boxIff v).mp h)⟩

/-- C4: on any board of side `n = d * d` and any cell `(x, y)` with
`x, y < n`, `candidates_for` returns (without raising) exactly the set
`{0, …, n-1}` minus every assigned value in row `y`, minus every
assigned value in column `x`, minus every assigned value in the
`d × d` block at `block_x = x / d`, `block_y = y / d` spanning rows
`[block_y*d, (block_y+1)*d)` and columns `[block_x*d, (block_x+1)*d)`;
unassigned cells contribute nothing to the removed values (only `some`
cells are excluded).  The embedding of the call is a pure function, so
the board is not modified. -/
theorem claim_C4 {b : Board} {n d x y : Nat} (hn : n = d * d)
    (hw : wfBoard b n) (hx : x < n) (hy : y < n) :
    ∃ l, candidates_for b n d x y = some l ∧
      ∀ v, v ∈ l ↔ v < n ∧ ¬usedInRow b n v y ∧ ¬usedInCol b n v x ∧
        ¬usedInBox b d v x y :=
  candidates_for_char hn hw hx hy

/-- Witness for C4 at the sample board, cell `(1, 1)`. -/
theorem claim_C4_witness :
    ∃ l, candidates_for sampleBoard 4 2 1 1 = some l ∧
      ∀ v, v ∈ l ↔ v < 4 ∧ ¬usedInRow sampleBoard 4 v 1 ∧
        ¬usedInCol sampleBoard 4 v 1 ∧ ¬usedInBox sampleBoard 2 v 1 1 :=
  claim_C4 (by decide) ⟨rfl, by decide⟩ (by decide) (by decide)

/-- C5 counterexample: `generate(0, …)` neither returns an empty 0×0
board nor fails with an input-validation error: there is no validation
in the code at all, and the call dies with an uncaught `IndexError`
raised by `candidates_for` reading row 0 of the empty board. -/
theorem claim_C5_counterexample :
    generate_board rngId 0 false = .indexError ∧
      generate_board rngId 0 false ≠ .ok [] := by decide

/-- C5 (amended): `generate_board` performs no input validation; for
dimension 0 it always (for every PRNG behaviour and either `shuffle`
setting) fails with the uncaught `IndexError` raised by
`candidates_for` before any slot is filled — not with an
input-validation error, and without returning a board. -/
theorem claim_C5_amended (rng : Rng) (s : Bool) :
    generate_board rng 0 s = .indexError := rfl

/-- C2: the claim is refuted on the code: `complete_board`'s recursive
call (line 65 of `src/main.py`) does not forward `shuffle`, so with
`randomize = false` every level below the first still shuffles with
the process PRNG.  Two legitimate PRNG behaviours (identity and
reversal — both permutations, as `random.shuffle` guarantees) give
different boards for `generate(2, false)`, so the generation is not a
deterministic function of the dimension. -/
theorem claim_C2_theorem :
    generate_board rngId 2 false ≠ generate_board rngRev 2 false := by
  decide

/-- C3: refuted on the code by the same missing-`shuffle` bug: under
the reversing PRNG behaviour, `generate(2, false)` produces a board
whose row 0 is `[0, 3, 2, 1]`, not `[0, 1, 2, 3]` (only the first cell
is tried in ascending order; all deeper cells are shuffled). -/
theorem claim_C3_theorem :
    generate_board rngRev 2 false =
      .ok [[some 0, some 3, some 2, some 1],
           [some 2, some 1, some 3, some 0],
           [some 3, some 0, some 1, some 2],
           [some 1, some 2, some 0, some 3]] ∧
      [some 0, some 3, some 2, some 1] ≠ [some 0, some 1, some 2, some 3] := by
  decide


/-! ### Slot arithmetic and the no-error / fuel-bound invariant -/
/-- Row-major index of a slot. -/
theorem slot_index_lt {n x y : Nat} (hx : x < n) (hy : y < n) :
    y * n + x < n * n := by
  calc y * n + x < y * n + n := by omega
    _ = (y + 1) * n := (Nat.succ_mul y n).symm
    _ ≤ n * n := Nat.mul_le_mul_right n (by omega)

theorem next_slot_index {n x y : Nat} (hx : x < n) :
    (next_slot n x y).2 * n + (next_slot n x y).1 = y * n + x + 1 := by
  unfold next_slot
  by_cases h : x = n - 1
  · rw [if_pos h]
    show (y + 1) * n + 0 = y * n + x + 1
    have : (y + 1) * n = y * n + n := Nat.succ_mul y n
    omega
  · rw [if_neg h]
    show y * n + (x + 1) = y * n + x + 1
    omega

theorem next_slot_fst_lt {n x y : Nat} (hx : x < n) :
    (next_slot n x y).1 < n := by
  unfold next_slot
  by_cases h : x = n - 1
  · rw [if_pos h]
    show 0 < n
    omega
  · rw [if_neg h]
    show x + 1 < n
    omega

theorem complete_board_loop_okOrFail {n x y : Nat}
    (recur : Board → Nat → Nat → SearchResult)
    (hrec : ∀ b, wfBoard b n → (next_slot n x y).2 < n →
      okOrFail n (recur b (next_slot n x y).1 (next_slot n x y).2)) :
    ∀ (l : List Nat) {b : Board}, wfBoard b n →
      okOrFail n (complete_board_loop recur n x y b l) := by
  intro l
  induction l with
  | nil =>
    intro b hw
    exact Or.inr ⟨b, rfl, hw⟩
  | cons v rest ih =>
    intro b hw
    simp only [complete_board_loop]
    have hw1 : wfBoard (setCell b x y (some v)) n := wfBoard_setCell hw _
    by_cases hstop : n ≤ (next_slot n x y).2
    · rw [if_pos hstop]
      exact Or.inl ⟨_, rfl, hw1⟩
    · rw [if_neg hstop]
      have hny : (next_slot n x y).2 < n := by omega
      rcases hrec _ hw1 hny with ⟨c, hc, hwc⟩ | ⟨b2, hb2, hwb2⟩
      · rw [hc]
        exact Or.inl ⟨c, rfl, hwc⟩
      · rw [hb2]
        exact ih (wfBoard_setCell hwb2 _)

/-- The central resource invariant: on a well-formed board of side
`n = d * d`, starting at any in-range slot, `complete_board` with fuel
at least the number of remaining slots neither raises an `IndexError`
nor runs out of fuel: it ends in `.ok` or `.fail`, with a well-formed
board.  One fuel unit is one stack frame, so this bounds the recursion
depth by `n*n - (y*n + x)` frames. -/
theorem complete_board_okOrFail (rng : Rng) :
    ∀ (fuel : Nat) {b : Board} {n d x y : Nat} {s : Bool},
      n = d * d → wfBoard b n → x < n → y < n →
      n * n - (y * n + x) ≤ fuel →
      okOrFail n (complete_board rng fuel b n d x y s) := by
  intro fuel
  induction fuel with
  | zero =>
    intro b n d x y s _ _ hx hy hfuel
    have := slot_index_lt hx hy
    omega
  | succ fuel ih =>
    intro b n d x y s hn hw hx hy hfuel
    obtain ⟨l, hl, _⟩ := candidates_for_char hn hw hx hy
    rw [complete_board, hl]
    dsimp only
    apply complete_board_loop_okOrFail
    · intro b' hw' hny
      have hnx : (next_slot n x y).1 < n := next_slot_fst_lt hx
      apply ih hn hw' hnx hny
      have h1 := next_slot_index (n := n) (x := x) (y := y) hx
      omega
    · exact hw

/-- C7: for every dimension `d ≥ 1`, every well-formed board and
in-range starting cell, and every PRNG behaviour, the search runs to
completion — it terminates with a normal outcome (`.ok` or `.fail`),
and a fuel of `d⁴ = N²` stack frames (one frame per cell) is never
exhausted: each recursive call moves strictly forward in row-major
order, so the recursion depth never exceeds `N² - (y·N + x) ≤ d⁴`
frames. -/
theorem claim_C7 (rng : Rng) {b : Board} {n d x y : Nat} (s : Bool)
    (_hd : 1 ≤ d) (hn : n = d * d) (hw : wfBoard b n) (hx : x < n)
    (hy : y < n) :
    okOrFail n (complete_board rng (d ^ 4) b n d x y s) ∧
      complete_board rng (d ^ 4) b n d x y s ≠ .fuelOut := by
  subst hn
  have hfuel : (d * d) * (d * d) - (y * (d * d) + x) ≤ d ^ 4 := by
    have h4 : d ^ 4 = (d * d) * (d * d) := by ring
    omega
  have h := complete_board_okOrFail rng (d ^ 4) (s := s) rfl hw hx hy hfuel
  refine ⟨h, ?_⟩
  rcases h with ⟨c, hc, _⟩ | ⟨c, hc, _⟩ <;> rw [hc] <;>
    exact fun hcon => SearchResult.noConfusion hcon

/-- Witness for C7: dimension 2, the empty 4×4 board, start `(0, 0)`. -/
theorem claim_C7_witness :
    okOrFail 4 (complete_board rngId (2 ^ 4)
      (List.replicate 4 (List.replicate 4 none)) 4 2 0 0 false) ∧
      complete_board rngId (2 ^ 4)
        (List.replicate 4 (List.replicate 4 none)) 4 2 0 0 false ≠
        .fuelOut :=
  claim_C7 rngId false (by decide) (by decide) ⟨rfl, by decide⟩
    (by decide) (by decide)


/-! ### Restoration on failure (backtracking undoes its writes) -/
theorem set_getElem_self {α : Type} (l : List α) {i : Nat}
    (h : i < l.length) : l.set i l[i] = l := by
  apply List.ext_getElem?
  intro j
  by_cases hij : i = j
  · subst hij
    rw [List.getElem?_set_self h, List.getElem?_eq_getElem h]
  · rw [List.getElem?_set_ne hij]

/-- Writing a value at an unassigned cell and then resetting the cell
to unassigned restores the original board (Python lines 58 and 69). -/
theorem setCell_setCell_restore {b : Board} {x y : Nat} (v : Cell)
    (h : getCell b x y = none) :
    setCell (setCell b x y v) x y none = b := by
  by_cases hyb : y < b.length
  · unfold setCell
    rw [getD_set_self _ _ _ _ hyb, List.set_set, List.set_set]
    by_cases hxr : x < (b.getD y []).length
    · have hx' : (b.getD y [])[x] = none := by
        rw [← getD_eq_of_lt _ _ hxr]
        exact h
      have h1 : (b.getD y []).set x none = b.getD y [] := by
        conv_lhs => rw [← hx']
        exact set_getElem_self _ hxr
      rw [h1, getD_eq_of_lt _ _ hyb]
      exact set_getElem_self _ hyb
    · have h1 : (b.getD y []).set x none = b.getD y [] :=
        List.set_eq_of_length_le (by omega)
      rw [h1, getD_eq_of_lt _ _ hyb]
      exact set_getElem_self _ hyb
  · have h1 : ∀ v : Cell, setCell b x y v = b := fun v =>
      List.set_eq_of_length_le (by omega)
    rw [h1, h1]

theorem suffixNone_next {b : Board} {n x y : Nat} (v : Cell) (hx : x < n)
    (hs : suffixNone b n x y) :
    suffixNone (setCell b x y v) n (next_slot n x y).1
      (next_slot n x y).2 := by
  intro i hi j hj hidx
  have hni := next_slot_index (n := n) (x := x) (y := y) hx
  have hne : x ≠ i ∨ y ≠ j := by
    by_contra hcon
    push_neg at hcon
    obtain ⟨rfl, rfl⟩ := hcon
    omega
  rw [getCell_setCell_ne _ hne]
  exact hs i hi j hj (by omega)

theorem complete_board_loop_restore {n x y : Nat}
    (recur : Board → Nat → Nat → SearchResult) (hx : x < n) (hy : y < n)
    (hrec : ∀ b b', (next_slot n x y).2 < n →
      suffixNone b n (next_slot n x y).1 (next_slot n x y).2 →
      recur b (next_slot n x y).1 (next_slot n x y).2 = .fail b' → b' = b) :
    ∀ (l : List Nat) {b b' : Board}, suffixNone b n x y →
      complete_board_loop recur n x y b l = .fail b' → b' = b := by
  intro l
  induction l with
  | nil =>
    intro b b' _ h
    rw [complete_board_loop] at h
    injection h with h
    exact h.symm
  | cons v rest ih =>
    intro b b' hs h
    simp only [complete_board_loop] at h
    split at h
    · cases h
    · rename_i hstop
      split at h
      · cases h
      · rename_i b2 heq
        have hb2 : b2 = setCell b x y (some v) :=
          hrec _ _ (by omega) (suffixNone_next _ hx hs) heq
        rw [hb2, setCell_setCell_restore _ (hs x hx y hy (by omega))] at h
        exact ih hs h
      · cases h
      · cases h

/-- On failure `complete_board` hands back the board exactly as it
received it, provided all cells from the current slot on were
unassigned (which holds on every frame of a run started on the empty
board). -/
theorem complete_board_restore (rng : Rng) :
    ∀ (fuel : Nat) {b b' : Board} {n d x y : Nat} {s : Bool},
      x < n → y < n → suffixNone b n x y →
      complete_board rng fuel b n d x y s = .fail b' → b' = b := by
  intro fuel
  induction fuel with
  | zero =>
    intro b b' n d x y s _ _ _ h
    cases h
  | succ fuel ih =>
    intro b b' n d x y s hx hy hs h
    rw [complete_board] at h
    cases hc : candidates_for b n d x y with
    | none => rw [hc] at h; cases h
    | some l =>
      rw [hc] at h
      dsimp only at h
      refine complete_board_loop_restore _ hx hy ?_ _ hs h
      intro b2 b2' hny hs2 h2
      exact ih (next_slot_fst_lt hx) hny hs2 h2

/-- C6: backtracking is atomic with respect to failure.  Inside the
candidate loop a failed recursive attempt resets the tentative
assignment to the unassigned marker before the next candidate is tried
(line 69 of `src/main.py`; in the embedding, the `setCell b2 x y none`
applied to the board handed back by the failed call), and consequently
a failing call returns Python's `None` — no partially or invalidly
filled board — while the board object is exactly as it was at entry:
in particular every cell that was unassigned when the call was entered
is unassigned again when it returns failure.  The hypothesis
`suffixNone` states the claim's entry condition: the cells from the
current slot onward are the unassigned ones. -/
theorem claim_C6 (rng : Rng) (fuel : Nat) {b b' : Board} {n d x y : Nat}
    {s : Bool} (hx : x < n) (hy : y < n) (hs : suffixNone b n x y)
    (hfail : complete_board rng fuel b n d x y s = .fail b') :
    b' = b ∧ ∀ i j, getCell b i j = none → getCell b' i j = none := by
  have h := complete_board_restore rng fuel hx hy hs hfail
  exact ⟨h, fun i j hij => by rw [h]; exact hij⟩

/-- Witness for C6: at `deadEndBoard`, slot `(2, 1)`, the search fails
and hands the board back unchanged. -/
theorem claim_C6_witness :
    deadEndBoard = deadEndBoard ∧
      ∀ i j, getCell deadEndBoard i j = none →
        getCell deadEndBoard i j = none :=
  claim_C6 rngId 16 (n := 4) (d := 2) (x := 2) (y := 1) (s := false)
    (by decide) (by decide) (by decide) (by decide)


theorem complete_board_loop_frame {n x y : Nat}
    (recur : Board → Nat → Nat → SearchResult) (hx : x < n)
    (hrec : ∀ b b', (next_slot n x y).2 < n →
      resultBoard (recur b (next_slot n x y).1 (next_slot n x y).2) =
        some b' →
      ∀ i j, i < n →
        j * n + i < (next_slot n x y).2 * n + (next_slot n x y).1 →
        getCell b' i j = getCell b i j) :
    ∀ (l : List Nat) {b b' : Board},
      resultBoard (complete_board_loop recur n x y b l) = some b' →
      ∀ i j, i < n → j * n + i < y * n + x →
        getCell b' i j = getCell b i j := by
  intro l
  induction l with
  | nil =>
    intro b b' h i j hi hidx
    rw [complete_board_loop] at h
    simp only [resultBoard] at h
    injection h with h
    rw [← h]
  | cons v rest ih =>
    intro b b' h i j hi hidx
    have hni := next_slot_index (n := n) (x := x) (y := y) hx
    have hne : x ≠ i ∨ y ≠ j := by
      by_contra hcon
      push_neg at hcon
      obtain ⟨rfl, rfl⟩ := hcon
      omega
    simp only [complete_board_loop] at h
    split at h
    · simp only [resultBoard] at h
      injection h with h
      rw [← h, getCell_setCell_ne _ hne]
    · rename_i hstop
      split at h
      · rename_i c heq
        simp only [resultBoard] at h
        injection h with h
        subst h
        have h1 := hrec _ _ (by omega) (by rw [heq]; rfl) i j hi (by omega)
        rw [h1, getCell_setCell_ne _ hne]
      · rename_i b2 heq
        have h1 := ih h i j hi hidx
        rw [h1, getCell_setCell_ne _ hne]
        have h2 := hrec _ _ (by omega) (by rw [heq]; rfl) i j hi (by omega)
        rw [h2, getCell_setCell_ne _ hne]
      · exact Option.noConfusion h
      · exact Option.noConfusion h

/-- The frame lemma: whatever board a call hands back (successful or
failing), every cell strictly before the call's slot in row-major
order still holds its entry value — each frame writes only its own
cell and cells after it. -/
theorem complete_board_frame (rng : Rng) :
    ∀ (fuel : Nat) {b b' : Board} {n d x y : Nat} {s : Bool}, x < n →
      resultBoard (complete_board rng fuel b n d x y s) = some b' →
      ∀ i j, i < n → j * n + i < y * n + x →
        getCell b' i j = getCell b i j := by
  intro fuel
  induction fuel with
  | zero =>
    intro b b' n d x y s _ h
    exact Option.noConfusion h
  | succ fuel ih =>
    intro b b' n d x y s hx h i j hi hidx
    rw [complete_board] at h
    split at h
    · exact Option.noConfusion h
    · refine complete_board_loop_frame _ hx ?_ _ h i j hi hidx
      intro b2 b2' hny h2 i' j' hi' hidx'
      exact ih (next_slot_fst_lt hx) h2 i' j' hi' hidx'

/-- C8 (implicit frame effect): for a call `complete_board` on a board
whose cells before `(x, y)` in row-major order are assigned and whose
cells from `(x, y)` onward are unassigned, every cell strictly before
`(x, y)` holds the same value after the call returns as it did at
entry, whether the call succeeds (`.ok`) or fails (`.fail`): each
frame writes only its own cell and cells after it. -/
theorem claim_C8 (rng : Rng) (fuel : Nat) {b b' : Board} {n d x y : Nat}
    {s : Bool} (hx : x < n) (_hy : y < n)
    (_hpre : assignedBefore b n x y) (_hsuf : suffixNone b n x y)
    (hres : resultBoard (complete_board rng fuel b n d x y s) = some b') :
    ∀ i j, i < n → j < n → j * n + i < y * n + x →
      getCell b' i j = getCell b i j := by
  intro i j hi _hj hidx
  exact complete_board_frame rng fuel hx hres i j hi hidx

/-- Witness for C8: completing `rowOneBoard` from slot `(0, 1)`
succeeds and leaves row 0 untouched. -/
theorem claim_C8_witness :
    assignedBefore rowOneBoard 4 0 1 ∧ suffixNone rowOneBoard 4 0 1 ∧
      ∀ i j, i < 4 → j < 4 → j * 4 + i < 1 * 4 + 0 →
        getCell [[some 0, some 1, some 2, some 3],
                 [some 2, some 3, some 0, some 1],
                 [some 1, some 0, some 3, some 2],
                 [some 3, some 2, some 1, some 0]] i j =
          getCell rowOneBoard i j :=
  ⟨by decide, by decide,
    claim_C8 rngId 16 (n := 4) (d := 2) (x := 0) (y := 1) (s := false)
      (by decide) (by decide) (by decide) (by decide) (by decide)⟩


/-! ### Partial Sudoku validity and the search-state invariant -/
theorem getCell_setCell {b : Board} {n x y : Nat} (hw : wfBoard b n)
    (hx : x < n) (hy : y < n) (w : Cell) (i j : Nat) :
    getCell (setCell b x y w) i j =
      if i = x ∧ j = y then w else getCell b i j := by
  by_cases h : i = x ∧ j = y
  · obtain ⟨rfl, rfl⟩ := h
    rw [if_pos ⟨rfl, rfl⟩, getCell_setCell_self hw hx hy]
  · rw [if_neg h]
    refine getCell_setCell_ne _ ?_
    by_cases hix : i = x
    · right
      intro hyj
      exact h ⟨hix, hyj.symm⟩
    · left
      exact fun hcon => hix hcon.symm

theorem div_mul_bounds {a d : Nat} (hd : 0 < d) :
    a / d * d ≤ a ∧ a < a / d * d + d := by
  refine ⟨Nat.div_mul_le_self a d, ?_⟩
  have h := Nat.div_add_mod a d
  have h2 := Nat.mod_lt a hd
  have h3 : d * (a / d) = a / d * d := Nat.mul_comm _ _
  omega

/-- The one-step preservation lemma behind the search invariant:
writing a value that is absent from its row, column and block (i.e.
any member of the slot's candidate set) keeps the board partially
valid. -/
theorem validSoFar_setCell {b : Board} {n d x y v : Nat}
    (hn : n = d * d) (hw : wfBoard b n) (hx : x < n) (hy : y < n)
    (hpv : validSoFar b n d) (hnr : ¬usedInRow b n v y)
    (hnc : ¬usedInCol b n v x) (hnb : ¬usedInBox b d v x y) :
    validSoFar (setCell b x y (some v)) n d := by
  have hd : 0 < d := by
    rcases Nat.eq_zero_or_pos d with h | h
    · subst h
      rw [Nat.mul_zero] at hn
      omega
    · exact h
  obtain ⟨hrows, hcols, hboxes⟩ := hpv
  refine ⟨?_, ?_, ?_⟩
  · intro j hj i1 hi1 i2 hi2 hne heq
    rw [getCell_setCell hw hx hy] at hne heq
    rw [getCell_setCell hw hx hy (some v) i2 j] at heq
    split_ifs at hne heq with h1 h2 h2
    · omega
    · exact absurd ⟨i2, hi2, by rw [← h1.2]; exact heq.symm⟩ hnr
    · exact absurd ⟨i1, hi1, by rw [← h2.2]; exact heq⟩ hnr
    · exact hrows j hj i1 hi1 i2 hi2 hne heq
  · intro i hi j1 hj1 j2 hj2 hne heq
    rw [getCell_setCell hw hx hy] at hne heq
    rw [getCell_setCell hw hx hy (some v) i j2] at heq
    split_ifs at hne heq with h1 h2 h2
    · omega
    · exact absurd ⟨j2, hj2, by rw [← h1.1]; exact heq.symm⟩ hnc
    · exact absurd ⟨j1, hj1, by rw [← h2.1]; exact heq⟩ hnc
    · exact hcols i hi j1 hj1 j2 hj2 hne heq
  · intro i1 hi1 j1 hj1 i2 hi2 j2 hj2 hdi hdj hne heq
    rw [getCell_setCell hw hx hy] at hne heq
    rw [getCell_setCell hw hx hy (some v) i2 j2] at heq
    split_ifs at hne heq with h1 h2 h2
    · exact ⟨by omega, by omega⟩
    · refine absurd ⟨j2, i2, ?_, ?_, ?_, ?_, heq.symm⟩ hnb
      · have hb := (div_mul_bounds (a := j2) hd).1
        rw [← hdj, h1.2] at hb
        exact hb
      · have hb := (div_mul_bounds (a := j2) hd).2
        rw [← hdj, h1.2] at hb
        rw [Nat.succ_mul]
        exact hb
      · have hb := (div_mul_bounds (a := i2) hd).1
        rw [← hdi, h1.1] at hb
        exact hb
      · have hb := (div_mul_bounds (a := i2) hd).2
        rw [← hdi, h1.1] at hb
        rw [Nat.succ_mul]
        exact hb
    · refine absurd ⟨j1, i1, ?_, ?_, ?_, ?_, heq⟩ hnb
      · have hb := (div_mul_bounds (a := j1) hd).1
        rw [hdj, h2.2] at hb
        exact hb
      · have hb := (div_mul_bounds (a := j1) hd).2
        rw [hdj, h2.2] at hb
        rw [Nat.succ_mul]
        exact hb
      · have hb := (div_mul_bounds (a := i1) hd).1
        rw [hdi, h2.1] at hb
        exact hb
      · have hb := (div_mul_bounds (a := i1) hd).2
        rw [hdi, h2.1] at hb
        rw [Nat.succ_mul]
        exact hb
    · exact hboxes i1 hi1 j1 hj1 i2 hi2 j2 hj2 hdi hdj hne heq

theorem mapM_option_some {α β : Type} {f : α → Option β} {l : List α}
    {out : List β} (h : l.mapM f = some out) :
    ∀ a ∈ l, ∃ c, f a = some c := by
  induction l generalizing out with
  | nil =>
    intro a ha
    cases ha
  | cons a l ih =>
    rw [List.mapM_cons] at h
    simp only [Option.bind_eq_bind, Option.bind_eq_some, Option.pure_def,
      Option.some.injEq] at h
    obtain ⟨c, hc, cs, hcs, rfl⟩ := h
    intro a' ha'
    rcases List.mem_cons.mp ha' with rfl | ha'
    · exact ⟨c, hc⟩
    · exact ih hcs a' ha'

/-- A successful `candidates_for` call pins its coordinates inside the
board: the row read needs `y < n` and the column reads need `x < n`. -/
theorem candidates_for_bounds {b : Board} {n d x y : Nat} {l : List Nat}
    (hw : wfBoard b n) (hc : candidates_for b n d x y = some l) :
    x < n ∧ y < n := by
  unfold candidates_for at hc
  simp only [Option.bind_eq_bind, Option.bind_eq_some] at hc
  obtain ⟨r, hr, cv, hcv, _⟩ := hc
  have hy : y < b.length := by
    by_contra hcon
    rw [List.getElem?_eq_none (by omega)] at hr
    cases hr
  refine ⟨?_, by rw [← hw.1]; exact hy⟩
  have hrow : b[y] ∈ b := List.getElem_mem hy
  obtain ⟨c, hc2⟩ := mapM_option_some hcv b[y] hrow
  by_contra hcon
  rw [List.getElem?_eq_none (by rw [hw.2 _ hrow]; omega)] at hc2
  cases hc2

theorem wfBoard_empty (n : Nat) :
    wfBoard (List.replicate n (List.replicate n none)) n := by
  constructor
  · exact List.length_replicate n _
  · intro row hrow
    rw [List.eq_of_mem_replicate hrow]
    exact List.length_replicate n _

theorem getCell_empty (n i j : Nat) :
    getCell (List.replicate n (List.replicate n none)) i j = none := by
  unfold getCell
  by_cases hj : j < n
  · have hj' : j < (List.replicate n (List.replicate n (none : Cell))).length := by
      rw [List.length_replicate]
      exact hj
    rw [getD_eq_of_lt _ _ hj', List.getElem_replicate]
    by_cases hi : i < n
    · rw [getD_eq_of_lt _ _ (by rw [List.length_replicate]; exact hi),
        List.getElem_replicate]
    · exact List.getD_eq_default _ _ (by rw [List.length_replicate]; omega)
  · have h0 : (List.replicate n (List.replicate n (none : Cell))).getD j []
        = [] :=
      List.getD_eq_default _ _ (by rw [List.length_replicate]; omega)
    rw [h0]
    rfl

theorem validSoFar_empty (n d : Nat) :
    validSoFar (List.replicate n (List.replicate n none)) n d := by
  refine ⟨?_, ?_, ?_⟩
  · intro j _ i1 _ i2 _ hne _
    exact absurd (getCell_empty n i1 j) hne
  · intro i _ j1 _ j2 _ hne _
    exact absurd (getCell_empty n i j1) hne
  · intro i1 _ j1 _ i2 _ j2 _ _ _ hne _
    exact absurd (getCell_empty n i1 j1) hne

theorem reachable_invariant {n d : Nat} (hn : n = d * d)
    {st : Board × Nat × Nat}
    (h : Relation.ReflTransGen (SearchStep n d)
      (List.replicate n (List.replicate n none), 0, 0) st) :
    wfBoard st.1 n ∧ validSoFar st.1 n d := by
  induction h with
  | refl => exact ⟨wfBoard_empty n, validSoFar_empty n d⟩
  | tail hab hbc ih =>
    cases hbc with
    | write hc hv =>
      obtain ⟨hw, hpv⟩ := ih
      obtain ⟨hx, hy⟩ := candidates_for_bounds hw hc
      obtain ⟨l', hl', hiff⟩ := candidates_for_char hn hw hx hy
      rw [hc] at hl'
      injection hl' with hl'
      subst hl'
      have hprops := (hiff _).mp hv
      exact ⟨wfBoard_setCell hw _, validSoFar_setCell hn hw hx hy hpv
        hprops.2.1 hprops.2.2.1 hprops.2.2.2⟩

/-- C9 (implicit invariant): starting from the empty board, every
intermediate board state reachable during the search satisfies partial
Sudoku validity — a value is only ever written to a cell if it is in
that cell's candidate set at that moment (`SearchStep` is exactly that
write), so at no reachable state does any row, column or `d × d` block
contain the same assigned value twice. -/
theorem claim_C9 {n d : Nat} (hn : n = d * d) {st : Board × Nat × Nat}
    (hreach : Relation.ReflTransGen (SearchStep n d)
      (List.replicate n (List.replicate n none), 0, 0) st) :
    validSoFar st.1 n d :=
  (reachable_invariant hn hreach).2

/-- Witness for C9: the state after the search's first write (value 0
into slot `(0, 0)` of the empty 4×4 board) is partially valid. -/
theorem claim_C9_witness :
    validSoFar
      (setCell (List.replicate 4 (List.replicate 4 none)) 0 0 (some 0))
      4 2 :=
  claim_C9 (by decide)
    (Relation.ReflTransGen.tail Relation.ReflTransGen.refl
      (SearchStep.write (l := [0, 1, 2, 3]) (by decide) (by decide)))


/-! ### Soundness: a successful search returns a complete valid board -/
/-- Row-major indices of in-range slots are distinct: equal indices
force equal coordinates. -/
theorem slot_index_inj {n i x j y : Nat} (hi : i < n) (hx : x < n)
    (h : j * n + i = y * n + x) : i = x ∧ j = y := by
  rcases Nat.lt_trichotomy j y with hlt | heq | hgt
  · exfalso
    have hle : (j + 1) * n ≤ y * n := Nat.mul_le_mul_right n (by omega)
    rw [Nat.succ_mul] at hle
    omega
  · subst heq
    omega
  · exfalso
    have hle : (y + 1) * n ≤ j * n := Nat.mul_le_mul_right n (by omega)
    rw [Nat.succ_mul] at hle
    omega

theorem assignedBefore_next {b : Board} {n x y : Nat} (v : Nat)
    (hw : wfBoard b n) (hx : x < n) (hy : y < n)
    (hpre : assignedBefore b n x y) :
    assignedBefore (setCell b x y (some v)) n (next_slot n x y).1
      (next_slot n x y).2 := by
  intro i hi j hj hidx
  have hni := next_slot_index (n := n) (x := x) (y := y) hx
  rw [getCell_setCell hw hx hy]
  split_ifs with h
  · exact fun hcon => Option.noConfusion hcon
  · apply hpre i hi j hj
    have hne : j * n + i ≠ y * n + x := by
      intro hcon
      exact h ⟨(slot_index_inj hi hx hcon).1, (slot_index_inj hi hx hcon).2⟩
    omega

/-- A board that is fully assigned up to and including the final slot
`(n-1, n-1)` is fully assigned. -/
theorem fullAssigned_of_last {b : Board} {n x y v : Nat}
    (hw : wfBoard b n) (hx : x < n) (hy : y < n)
    (hterm : n ≤ (next_slot n x y).2) (hpre : assignedBefore b n x y) :
    ∀ i, i < n → ∀ j, j < n →
      getCell (setCell b x y (some v)) i j ≠ none := by
  have hxn : x = n - 1 := by
    unfold next_slot at hterm
    by_cases h : x = n - 1
    · exact h
    · rw [if_neg h] at hterm
      omega
  have hyn : y = n - 1 := by
    unfold next_slot at hterm
    rw [if_pos hxn] at hterm
    omega
  intro i hi j hj
  rw [getCell_setCell hw hx hy]
  split_ifs with h
  · exact fun hcon => Option.noConfusion hcon
  · apply hpre i hi j hj
    subst hxn hyn
    by_cases hjy : j = n - 1
    · subst hjy
      have hix : i ≠ n - 1 := fun hcon => h ⟨hcon, rfl⟩
      omega
    · have hle : (j + 1) * n ≤ (n - 1) * n :=
        Nat.mul_le_mul_right n (by omega)
      rw [Nat.succ_mul] at hle
      omega

theorem cellsInRange_empty (n : Nat) :
    cellsInRange (List.replicate n (List.replicate n none)) n := by
  intro i _ j _ v hv
  rw [getCell_empty] at hv
  cases hv

theorem cellsInRange_setCell {b : Board} {n x y v : Nat}
    (hw : wfBoard b n) (hx : x < n) (hy : y < n) (hvn : v < n)
    (hr : cellsInRange b n) :
    cellsInRange (setCell b x y (some v)) n := by
  intro i hi j hj w hw'
  rw [getCell_setCell hw hx hy] at hw'
  split_ifs at hw' with h
  · injection hw' with hw'
    omega
  · exact hr i hi j hj w hw'

theorem complete_board_loop_sound {n d x y : Nat} {b : Board}
    (recur : Board → Nat → Nat → SearchResult) (hn : n = d * d)
    (hw : wfBoard b n) (hx : x < n) (hy : y < n)
    (hpv : validSoFar b n d) (hpre : assignedBefore b n x y)
    (hsuf : suffixNone b n x y) (hrng : cellsInRange b n)
    (hrecOk : ∀ c c', (next_slot n x y).2 < n → wfBoard c n →
      validSoFar c n d →
      assignedBefore c n (next_slot n x y).1 (next_slot n x y).2 →
      suffixNone c n (next_slot n x y).1 (next_slot n x y).2 →
      cellsInRange c n →
      recur c (next_slot n x y).1 (next_slot n x y).2 = .ok c' →
      wfBoard c' n ∧ validSoFar c' n d ∧
        (∀ i, i < n → ∀ j, j < n → getCell c' i j ≠ none) ∧
        cellsInRange c' n)
    (hrecFail : ∀ c c', (next_slot n x y).2 < n →
      suffixNone c n (next_slot n x y).1 (next_slot n x y).2 →
      recur c (next_slot n x y).1 (next_slot n x y).2 = .fail c' → c' = c) :
    ∀ (l : List Nat), (∀ v ∈ l, v < n ∧ ¬usedInRow b n v y ∧
      ¬usedInCol b n v x ∧ ¬usedInBox b d v x y) →
    ∀ {b' : Board}, complete_board_loop recur n x y b l = .ok b' →
      wfBoard b' n ∧ validSoFar b' n d ∧
        (∀ i, i < n → ∀ j, j < n → getCell b' i j ≠ none) ∧
        cellsInRange b' n := by
  intro l
  induction l with
  | nil =>
    intro _ b' h
    rw [complete_board_loop] at h
    cases h
  | cons v rest ih =>
    intro hl b' h
    obtain ⟨hvn, hvr, hvc, hvb⟩ := hl v (List.mem_cons_self v rest)
    have hw1 : wfBoard (setCell b x y (some v)) n := wfBoard_setCell hw _
    have hpv1 : validSoFar (setCell b x y (some v)) n d :=
      validSoFar_setCell hn hw hx hy hpv hvr hvc hvb
    have hrng1 : cellsInRange (setCell b x y (some v)) n :=
      cellsInRange_setCell hw hx hy hvn hrng
    simp only [complete_board_loop] at h
    split at h
    · rename_i hterm
      injection h with h
      subst h
      exact ⟨hw1, hpv1, fun i hi j hj =>
        fullAssigned_of_last hw hx hy hterm hpre i hi j hj, hrng1⟩
    · rename_i hterm
      split at h
      · rename_i c heq
        injection h with h
        subst h
        exact hrecOk _ _ (by omega) hw1 hpv1
          (assignedBefore_next v hw hx hy hpre)
          (suffixNone_next _ hx hsuf) hrng1 heq
      · rename_i b2 heq
        have hb2 : b2 = setCell b x y (some v) :=
          hrecFail _ _ (by omega) (suffixNone_next _ hx hsuf) heq
        rw [hb2, setCell_setCell_restore _ (hsuf x hx y hy (by omega))] at h
        exact ih (fun w hw' => hl w (List.mem_cons_of_mem _ hw')) h
      · cases h
      · cases h

/-- Soundness: when `complete_board` succeeds from a state whose
row-major prefix is assigned, whose suffix is unassigned, and which is
partially valid, the returned board is well-formed, partially valid
and fully assigned.  The PRNG hypothesis says `random.shuffle`
permutes its list (so a shuffled candidate is still a candidate). -/
theorem complete_board_sound (rng : Rng)
    (hrng : ∀ c u w m, (rng c u w m).Perm m) :
    ∀ (fuel : Nat) {b b' : Board} {n d x y : Nat} {s : Bool},
      n = d * d → wfBoard b n → x < n → y < n → validSoFar b n d →
      assignedBefore b n x y → suffixNone b n x y → cellsInRange b n →
      complete_board rng fuel b n d x y s = .ok b' →
      wfBoard b' n ∧ validSoFar b' n d ∧
        (∀ i, i < n → ∀ j, j < n → getCell b' i j ≠ none) ∧
        cellsInRange b' n := by
  intro fuel
  induction fuel with
  | zero =>
    intro b b' n d x y s _ _ _ _ _ _ _ _ h
    cases h
  | succ fuel ih =>
    intro b b' n d x y s hn hw hx hy hpv hpre hsuf hcir h
    obtain ⟨l, hl, hiff⟩ := candidates_for_char hn hw hx hy
    rw [complete_board] at h
    split at h
    · cases h
    · rename_i l0 heq
      rw [heq] at hl
      injection hl with hl
      subst hl
      refine complete_board_loop_sound _ hn hw hx hy hpv hpre hsuf hcir
        ?_ ?_ _ ?_ h
      · intro c c' hny hwc hpvc hprec hsufc hcirc hc
        exact ih hn hwc (next_slot_fst_lt hx) hny hpvc hprec hsufc hcirc hc
      · intro c c' hny hsufc hc
        exact complete_board_restore rng fuel (next_slot_fst_lt hx) hny
          hsufc hc
      · intro v hv
        refine (hiff v).mp ?_
        by_cases hs : s
        · rw [if_pos hs] at hv
          exact ((hrng b x y l0).mem_iff).mp hv
        · rw [if_neg hs] at hv
          exact hv


/-! ### Completeness: a solvable prefix makes the search succeed -/
theorem cell_ne_none {o : Cell} {v : Nat} (h : o = some v) : o ≠ none := by
  rw [h]
  exact fun hc0 => Option.noConfusion hc0

theorem complete_board_loop_complete {n x y : Nat} {b : Board} {v : Nat}
    (recur : Board → Nat → Nat → SearchResult)
    (hw : wfBoard b n) (hx : x < n) (hy : y < n)
    (hsuf : suffixNone b n x y)
    (hrecAll : ∀ c, (next_slot n x y).2 < n → wfBoard c n →
      okOrFail n (recur c (next_slot n x y).1 (next_slot n x y).2))
    (hrecFail : ∀ c c', (next_slot n x y).2 < n →
      suffixNone c n (next_slot n x y).1 (next_slot n x y).2 →
      recur c (next_slot n x y).1 (next_slot n x y).2 = .fail c' → c' = c)
    (hvok : (next_slot n x y).2 < n →
      ∃ c', recur (setCell b x y (some v)) (next_slot n x y).1
        (next_slot n x y).2 = .ok c') :
    ∀ (l : List Nat), v ∈ l →
      ∃ b', complete_board_loop recur n x y b l = .ok b' := by
  intro l
  induction l with
  | nil =>
    intro hv
    cases hv
  | cons w rest ih =>
    intro hv
    simp only [complete_board_loop]
    by_cases hterm : n ≤ (next_slot n x y).2
    · rw [if_pos hterm]
      exact ⟨_, rfl⟩
    · rw [if_neg hterm]
      have hny : (next_slot n x y).2 < n := by omega
      rcases hrecAll (setCell b x y (some w)) hny (wfBoard_setCell hw _) with
        ⟨c, hc, _⟩ | ⟨c, hc, _⟩
      · rw [hc]
        exact ⟨c, rfl⟩
      · rw [hc]
        show ∃ b', complete_board_loop recur n x y (setCell c x y none)
          rest = .ok b'
        have hcb : c = setCell b x y (some w) :=
          hrecFail _ _ hny (suffixNone_next _ hx hsuf) hc
        rw [hcb, setCell_setCell_restore _ (hsuf x hx y hy (by omega))]
        have hwv : w ≠ v := by
          intro hcon
          subst hcon
          obtain ⟨c', hc'⟩ := hvok hny
          rw [hc'] at hc
          cases hc
        rcases List.mem_cons.mp hv with hcon | hv'
        · exact absurd hcon.symm hwv
        · exact ih hv'

/-- Completeness: if some complete valid board extends the current
prefix, `complete_board` (with enough fuel for the remaining slots and
any permuting PRNG) succeeds. -/
theorem complete_board_complete (rng : Rng)
    (hrng : ∀ c u w m, (rng c u w m).Perm m) :
    ∀ (fuel : Nat) {b c : Board} {n d x y : Nat} {s : Bool},
      n = d * d → wfBoard b n → x < n → y < n → suffixNone b n x y →
      solutionOf c b n d → n * n - (y * n + x) ≤ fuel →
      ∃ b', complete_board rng fuel b n d x y s = .ok b' := by
  intro fuel
  induction fuel with
  | zero =>
    intro b c n d x y s _ _ hx hy _ _ hfuel
    have := slot_index_lt hx hy
    omega
  | succ fuel ih =>
    intro b c n d x y s hn hw hx hy hsuf hsol hfuel
    obtain ⟨l, hl, hiff⟩ := candidates_for_char hn hw hx hy
    obtain ⟨hwc, hpvc, hasg, hagr⟩ := hsol
    obtain ⟨v, hvn, hvc⟩ := hasg x hx y hy
    have hd0 : 0 < d := by
      rcases Nat.eq_zero_or_pos d with h0 | h0
      · subst h0
        rw [Nat.mul_zero] at hn
        omega
      · exact h0
    have hbxy : getCell b x y = none := hsuf x hx y hy (by omega)
    have hvmem : v ∈ l := by
      refine (hiff v).mpr ⟨hvn, ?_, ?_, ?_⟩
      · rintro ⟨i, hi, hbi⟩
        have hci : getCell c i y = some v := by
          rw [hagr i hi y hy (cell_ne_none hbi)]
          exact hbi
        have hix : i = x :=
          hpvc.1 y hy i hi x hx (cell_ne_none hci) (by rw [hci, hvc])
        subst hix
        rw [hbxy] at hbi
        cases hbi
      · rintro ⟨j, hj, hbj⟩
        have hcj : getCell c x j = some v := by
          rw [hagr x hx j hj (cell_ne_none hbj)]
          exact hbj
        have hjy : j = y :=
          hpvc.2.1 x hx j hj y hy (cell_ne_none hcj) (by rw [hcj, hvc])
        subst hjy
        rw [hbxy] at hbj
        cases hbj
      · rintro ⟨yy, xx, hb1, hb2, hb3, hb4, hbx⟩
        have hydd : y / d < d := (Nat.div_lt_iff_lt_mul hd0).mpr (by omega)
        have hxdd : x / d < d := (Nat.div_lt_iff_lt_mul hd0).mpr (by omega)
        have hyyn : yy < n := by
          have h5 : (y / d + 1) * d ≤ d * d := Nat.mul_le_mul_right d (by omega)
          omega
        have hxxn : xx < n := by
          have h5 : (x / d + 1) * d ≤ d * d := Nat.mul_le_mul_right d (by omega)
          omega
        have hcxx : getCell c xx yy = some v := by
          rw [hagr xx hxxn yy hyyn (cell_ne_none hbx)]
          exact hbx
        have hxxd : xx / d = x / d :=
          Nat.div_eq_of_lt_le hb3 (by rw [Nat.succ_mul] at hb4 ⊢; omega)
        have hyyd : yy / d = y / d :=
          Nat.div_eq_of_lt_le hb1 (by rw [Nat.succ_mul] at hb2 ⊢; omega)
        have heqc := hpvc.2.2 xx hxxn yy hyyn x hx y hy hxxd hyyd
          (cell_ne_none hcxx) (by rw [hcxx, hvc])
        obtain ⟨rfl, rfl⟩ := heqc
        rw [hbxy] at hbx
        cases hbx
    rw [complete_board, hl]
    refine complete_board_loop_complete (v := v) _ hw hx hy hsuf ?_ ?_ ?_ _ ?_
    · intro c'' hny hwc''
      apply complete_board_okOrFail rng fuel hn hwc'' (next_slot_fst_lt hx)
        hny
      have h1 := next_slot_index (n := n) (x := x) (y := y) hx
      omega
    · intro c1 c1' hny hsufc hc1
      exact complete_board_restore rng fuel (next_slot_fst_lt hx) hny
        hsufc hc1
    · intro hny
      refine ih hn (wfBoard_setCell hw _) (next_slot_fst_lt hx) hny
        (suffixNone_next _ hx hsuf) ⟨hwc, hpvc, hasg, ?_⟩ ?_
      · intro i hi j hj hne
        rw [getCell_setCell hw hx hy]
        rw [getCell_setCell hw hx hy] at hne
        split_ifs at hne ⊢ with hij
        · obtain ⟨rfl, rfl⟩ := hij
          exact hvc
        · exact hagr i hi j hj hne
      · have h1 := next_slot_index (n := n) (x := x) (y := y) hx
        omega
    · by_cases hs : s
      · rw [if_pos hs]
        exact ((hrng b x y l).mem_iff).mpr hvmem
      · rw [if_neg hs]
        exact hvmem


theorem getCell_patternBoard {n d i j : Nat} (hi : i < n) (hj : j < n) :
    getCell (patternBoard n d) i j
      = some ((d * (j % d) + j / d + i) % n) := by
  unfold getCell patternBoard
  have hj' : j < ((List.range n).map (fun j => (List.range n).map
      (fun i => some ((d * (j % d) + j / d + i) % n)))).length := by
    rw [List.length_map, List.length_range]
    exact hj
  rw [getD_eq_of_lt _ _ hj', List.getElem_map, List.getElem_range]
  have hi' : i < ((List.range n).map
      (fun i => some ((d * (j % d) + j / d + i) % n))).length := by
    rw [List.length_map, List.length_range]
    exact hi
  rw [getD_eq_of_lt _ _ hi', List.getElem_map, List.getElem_range]

theorem wfBoard_patternBoard (n d : Nat) : wfBoard (patternBoard n d) n := by
  constructor
  · rw [patternBoard, List.length_map, List.length_range]
  · intro row hrow
    rw [patternBoard] at hrow
    rcases List.mem_map.mp hrow with ⟨j, _, rfl⟩
    rw [List.length_map, List.length_range]

theorem add_mod_inj {n K a b : Nat} (ha : a < n) (hb : b < n)
    (h : (K + a) % n = (K + b) % n) : a = b := by
  have h1 : a ≡ b [MOD n] := Nat.ModEq.add_left_cancel' K h
  have h2 : a % n = b % n := h1
  rwa [Nat.mod_eq_of_lt ha, Nat.mod_eq_of_lt hb] at h2

/-- `j ↦ d * (j % d) + j / d` (the per-row shift key of the pattern
board) is injective below `d * d`. -/
theorem rowKey_inj {d j1 j2 : Nat} (hd : 0 < d) (hj1 : j1 < d * d)
    (hj2 : j2 < d * d)
    (h : d * (j1 % d) + j1 / d = d * (j2 % d) + j2 / d) : j1 = j2 := by
  have e1 : j1 / d < d := (Nat.div_lt_iff_lt_mul hd).mpr hj1
  have e2 : j2 / d < d := (Nat.div_lt_iff_lt_mul hd).mpr hj2
  have k1 : (d * (j1 % d) + j1 / d) % d = j1 / d := by
    rw [Nat.add_comm, Nat.add_mul_mod_self_left, Nat.mod_eq_of_lt e1]
  have k2 : (d * (j2 % d) + j2 / d) % d = j2 / d := by
    rw [Nat.add_comm, Nat.add_mul_mod_self_left, Nat.mod_eq_of_lt e2]
  have hdiv : j1 / d = j2 / d := by
    rw [← k1, ← k2, h]
  have hmul : d * (j1 % d) = d * (j2 % d) := by omega
  have hmod : j1 % d = j2 % d := Nat.eq_of_mul_eq_mul_left hd hmul
  have q1 := Nat.div_add_mod j1 d
  have q2 := Nat.div_add_mod j2 d
  have hq : d * (j1 / d) = d * (j2 / d) := by rw [hdiv]
  omega

/-- The pattern board solves the empty board: well-formed, all cells
assigned with in-range values, and no duplicate in any row, column or
block. -/
theorem patternBoard_solution {n d : Nat} (hd : 0 < d) (hn : n = d * d) :
    solutionOf (patternBoard n d)
      (List.replicate n (List.replicate n none)) n d := by
  have hn0 : 0 < n := by
    have := Nat.mul_pos hd hd
    omega
  have hkey : ∀ m, m < n → d * (m % d) + m / d < n := by
    intro m hm
    have m1 : m % d < d := Nat.mod_lt _ hd
    have m2 : d * (m % d) ≤ d * (d - 1) := Nat.mul_le_mul_left d (by omega)
    have m3 : m / d < d := (Nat.div_lt_iff_lt_mul hd).mpr (by omega)
    have h4 : d * (d - 1) + d = d * d := by
      have h5 : d * (d - 1 + 1) = d * (d - 1) + d := Nat.mul_succ d (d - 1)
      have h6 : d - 1 + 1 = d := by omega
      rw [h6] at h5
      omega
    omega
  refine ⟨wfBoard_patternBoard n d, ⟨?_, ?_, ?_⟩, ?_, ?_⟩
  · intro j hj i1 hi1 i2 hi2 _hne heq
    rw [getCell_patternBoard hi1 hj, getCell_patternBoard hi2 hj] at heq
    injection heq with heq
    exact add_mod_inj hi1 hi2 heq
  · intro i hi j1 hj1 j2 hj2 _hne heq
    rw [getCell_patternBoard hi hj1, getCell_patternBoard hi hj2] at heq
    injection heq with heq
    rw [Nat.add_comm (d * (j1 % d) + j1 / d) i,
      Nat.add_comm (d * (j2 % d) + j2 / d) i] at heq
    exact rowKey_inj hd (by omega) (by omega)
      (add_mod_inj (hkey j1 hj1) (hkey j2 hj2) heq)
  · intro i1 hi1 j1 hj1 i2 hi2 j2 hj2 hdi hdj _hne heq
    rw [getCell_patternBoard hi1 hj1, getCell_patternBoard hi2 hj2] at heq
    injection heq with heq
    have r1 : d * (j1 % d) + j1 / d + i1
        = (j1 / d + d * (i1 / d)) + (d * (j1 % d) + i1 % d) := by
      have q := Nat.div_add_mod i1 d
      omega
    have r2 : d * (j2 % d) + j2 / d + i2
        = (j2 / d + d * (i2 / d)) + (d * (j2 % d) + i2 % d) := by
      have q := Nat.div_add_mod i2 d
      omega
    rw [r1, r2, ← hdj, ← hdi] at heq
    have hi1d : i1 % d < d := Nat.mod_lt _ hd
    have hi2d : i2 % d < d := Nat.mod_lt _ hd
    have hA1 : d * (j1 % d) + i1 % d < n := by
      have m1 : j1 % d < d := Nat.mod_lt _ hd
      have m2 : d * (j1 % d) ≤ d * (d - 1) := Nat.mul_le_mul_left d (by omega)
      have h4 : d * (d - 1) + d = d * d := by
        have h5 : d * (d - 1 + 1) = d * (d - 1) + d := Nat.mul_succ d (d - 1)
        have h6 : d - 1 + 1 = d := by omega
        rw [h6] at h5
        omega
      omega
    have hA2 : d * (j2 % d) + i2 % d < n := by
      have m1 : j2 % d < d := Nat.mod_lt _ hd
      have m2 : d * (j2 % d) ≤ d * (d - 1) := Nat.mul_le_mul_left d (by omega)
      have h4 : d * (d - 1) + d = d * d := by
        have h5 : d * (d - 1 + 1) = d * (d - 1) + d := Nat.mul_succ d (d - 1)
        have h6 : d - 1 + 1 = d := by omega
        rw [h6] at h5
        omega
      omega
    have hAeq := add_mod_inj hA1 hA2 heq
    have k1 : (d * (j1 % d) + i1 % d) % d = i1 % d := by
      rw [Nat.add_comm, Nat.add_mul_mod_self_left, Nat.mod_eq_of_lt hi1d]
    have k2 : (d * (j2 % d) + i2 % d) % d = i2 % d := by
      rw [Nat.add_comm, Nat.add_mul_mod_self_left, Nat.mod_eq_of_lt hi2d]
    have himod : i1 % d = i2 % d := by
      rw [← k1, ← k2, hAeq]
    have hjmul : d * (j1 % d) = d * (j2 % d) := by omega
    have hjmod : j1 % d = j2 % d := Nat.eq_of_mul_eq_mul_left hd hjmul
    constructor
    · have q1 := Nat.div_add_mod i1 d
      have q2 := Nat.div_add_mod i2 d
      have hq : d * (i1 / d) = d * (i2 / d) := by rw [hdi]
      omega
    · have q1 := Nat.div_add_mod j1 d
      have q2 := Nat.div_add_mod j2 d
      have hq : d * (j1 / d) = d * (j2 / d) := by rw [hdj]
      omega
  · intro i hi j hj
    exact ⟨(d * (j % d) + j / d + i) % n, Nat.mod_lt _ hn0,
      getCell_patternBoard hi hj⟩
  · intro i hi j hj hne
    exact absurd (getCell_empty n i j) hne


/-! ### From no-duplicates to every-value-exactly-once (pigeonhole) -/
theorem row_surjective {b : Board} {n d : Nat} (hpv : validSoFar b n d)
    (hfull : ∀ i, i < n → ∀ j, j < n → ∃ v, v < n ∧ getCell b i j = some v) :
    ∀ j, j < n → ∀ v, v < n → ∃ i, i < n ∧ getCell b i j = some v := by
  intro j hj v hv
  set vf : Nat → Nat := fun i => (getCell b i j).getD 0 with hvf
  have hcell : ∀ i, i < n → getCell b i j = some (vf i) ∧ vf i < n := by
    intro i hi
    obtain ⟨w, hw, he⟩ := hfull i hi j hj
    rw [hvf]
    dsimp only
    rw [he]
    exact ⟨rfl, hw⟩
  have hinj : Set.InjOn vf ↑(Finset.range n) := by
    intro i1 h1 i2 h2 heq
    rw [Finset.mem_coe, Finset.mem_range] at h1 h2
    have c1 := (hcell i1 h1).1
    have c2 := (hcell i2 h2).1
    exact hpv.1 j hj i1 h1 i2 h2 (cell_ne_none c1) (by rw [c1, c2, heq])
  have hsub : (Finset.range n).image vf ⊆ Finset.range n := by
    intro w hw
    rw [Finset.mem_image] at hw
    obtain ⟨i, hi, rfl⟩ := hw
    rw [Finset.mem_range] at hi ⊢
    exact (hcell i hi).2
  have himg : (Finset.range n).image vf = Finset.range n :=
    Finset.eq_of_subset_of_card_le hsub
      (Finset.card_image_of_injOn hinj).ge
  have hvmem : v ∈ (Finset.range n).image vf := by
    rw [himg, Finset.mem_range]
    exact hv
  rw [Finset.mem_image] at hvmem
  obtain ⟨i, hi, hfi⟩ := hvmem
  rw [Finset.mem_range] at hi
  exact ⟨i, hi, by rw [(hcell i hi).1, hfi]⟩

theorem col_surjective {b : Board} {n d : Nat} (hpv : validSoFar b n d)
    (hfull : ∀ i, i < n → ∀ j, j < n → ∃ v, v < n ∧ getCell b i j = some v) :
    ∀ i, i < n → ∀ v, v < n → ∃ j, j < n ∧ getCell b i j = some v := by
  intro i hi v hv
  set vf : Nat → Nat := fun j => (getCell b i j).getD 0 with hvf
  have hcell : ∀ j, j < n → getCell b i j = some (vf j) ∧ vf j < n := by
    intro j hj
    obtain ⟨w, hw, he⟩ := hfull i hi j hj
    rw [hvf]
    dsimp only
    rw [he]
    exact ⟨rfl, hw⟩
  have hinj : Set.InjOn vf ↑(Finset.range n) := by
    intro j1 h1 j2 h2 heq
    rw [Finset.mem_coe, Finset.mem_range] at h1 h2
    have c1 := (hcell j1 h1).1
    have c2 := (hcell j2 h2).1
    exact hpv.2.1 i hi j1 h1 j2 h2 (cell_ne_none c1) (by rw [c1, c2, heq])
  have hsub : (Finset.range n).image vf ⊆ Finset.range n := by
    intro w hw
    rw [Finset.mem_image] at hw
    obtain ⟨j, hj, rfl⟩ := hw
    rw [Finset.mem_range] at hj ⊢
    exact (hcell j hj).2
  have himg : (Finset.range n).image vf = Finset.range n :=
    Finset.eq_of_subset_of_card_le hsub
      (Finset.card_image_of_injOn hinj).ge
  have hvmem : v ∈ (Finset.range n).image vf := by
    rw [himg, Finset.mem_range]
    exact hv
  rw [Finset.mem_image] at hvmem
  obtain ⟨j, hj, hfj⟩ := hvmem
  rw [Finset.mem_range] at hj
  exact ⟨j, hj, by rw [(hcell j hj).1, hfj]⟩

theorem box_surjective {b : Board} {n d : Nat} (hn : n = d * d)
    (hpv : validSoFar b n d)
    (hfull : ∀ i, i < n → ∀ j, j < n → ∃ v, v < n ∧ getCell b i j = some v) :
    ∀ bi, bi < d → ∀ bj, bj < d → ∀ v, v < n →
      ∃ i j, i < d ∧ j < d ∧ getCell b (bi * d + i) (bj * d + j) = some v := by
  intro bi hbi bj hbj v hv
  have hcoord : ∀ k, k < d → ∀ bk, bk < d → bk * d + k < n := by
    intro k hk bk hbk
    have h5 : (bk + 1) * d ≤ d * d := Nat.mul_le_mul_right d (by omega)
    rw [Nat.succ_mul] at h5
    omega
  have hdiv : ∀ k, k < d → ∀ bk, bk < d → (bk * d + k) / d = bk := by
    intro k hk bk _
    refine Nat.div_eq_of_lt_le (Nat.le_add_right _ _) ?_
    rw [Nat.succ_mul]
    omega
  set vf : Nat × Nat → Nat :=
    fun p => (getCell b (bi * d + p.1) (bj * d + p.2)).getD 0 with hvf
  have hcell : ∀ p : Nat × Nat, p.1 < d → p.2 < d →
      getCell b (bi * d + p.1) (bj * d + p.2) = some (vf p) ∧ vf p < n := by
    intro p h1 h2
    obtain ⟨w, hw, he⟩ :=
      hfull _ (hcoord p.1 h1 bi hbi) _ (hcoord p.2 h2 bj hbj)
    rw [hvf]
    dsimp only
    rw [he]
    exact ⟨rfl, hw⟩
  have hinj : Set.InjOn vf ↑(Finset.range d ×ˢ Finset.range d) := by
    intro p1 h1 p2 h2 heq
    rw [Finset.mem_coe, Finset.mem_product, Finset.mem_range,
      Finset.mem_range] at h1 h2
    have c1 := (hcell p1 h1.1 h1.2).1
    have c2 := (hcell p2 h2.1 h2.2).1
    have hbox := hpv.2.2 (bi * d + p1.1) (hcoord _ h1.1 bi hbi)
      (bj * d + p1.2) (hcoord _ h1.2 bj hbj)
      (bi * d + p2.1) (hcoord _ h2.1 bi hbi)
      (bj * d + p2.2) (hcoord _ h2.2 bj hbj)
      (by rw [hdiv _ h1.1 bi hbi, hdiv _ h2.1 bi hbi])
      (by rw [hdiv _ h1.2 bj hbj, hdiv _ h2.2 bj hbj])
      (cell_ne_none c1) (by rw [c1, c2, heq])
    have e1 : p1.1 = p2.1 := by omega
    have e2 : p1.2 = p2.2 := by omega
    exact Prod.ext e1 e2
  have hsub : (Finset.range d ×ˢ Finset.range d).image vf ⊆
      Finset.range n := by
    intro w hw
    rw [Finset.mem_image] at hw
    obtain ⟨p, hp, rfl⟩ := hw
    rw [Finset.mem_product, Finset.mem_range, Finset.mem_range] at hp
    rw [Finset.mem_range]
    exact (hcell p hp.1 hp.2).2
  have hcards : (Finset.range n).card ≤
      ((Finset.range d ×ˢ Finset.range d).image vf).card := by
    rw [Finset.card_image_of_injOn hinj, Finset.card_product]
    simp only [Finset.card_range]
    omega
  have himg := Finset.eq_of_subset_of_card_le hsub hcards
  have hvmem : v ∈ (Finset.range d ×ˢ Finset.range d).image vf := by
    rw [himg, Finset.mem_range]
    exact hv
  rw [Finset.mem_image] at hvmem
  obtain ⟨p, hp, hfp⟩ := hvmem
  rw [Finset.mem_product, Finset.mem_range, Finset.mem_range] at hp
  exact ⟨p.1, p.2, hp.1, hp.2, by rw [(hcell p hp.1 hp.2).1, hfp]⟩

theorem fullSudoku_of_parts {b : Board} {n d : Nat} (hn : n = d * d)
    (hw : wfBoard b n) (hpv : validSoFar b n d)
    (hne : ∀ i, i < n → ∀ j, j < n → getCell b i j ≠ none)
    (hcir : cellsInRange b n) : fullSudoku b n d := by
  have hfull : ∀ i, i < n → ∀ j, j < n →
      ∃ v, v < n ∧ getCell b i j = some v := by
    intro i hi j hj
    cases hcell : getCell b i j with
    | none => exact absurd hcell (hne i hi j hj)
    | some v => exact ⟨v, hcir i hi j hj v hcell, rfl⟩
  exact ⟨hw, hfull, row_surjective hpv hfull, col_surjective hpv hfull,
    box_surjective hn hpv hfull, hpv⟩

/-- C1: for every dimension `d ≥ 1`, either setting of `randomize`,
and every PRNG behaviour (`random.shuffle` permutes its list),
`generate_board` succeeds — it returns a fully assigned `n × n` board,
`n = d²`, in which every row, every column and every `d × d` block
contains each value of `{0, …, n-1}` exactly once: no duplicates
(`validSoFar` inside `fullSudoku`), no omissions (the existence
clauses), no unassigned cells. -/
theorem claim_C1 (rng : Rng) (hrng : ∀ c u w m, (rng c u w m).Perm m)
    {d : Nat} (hd : 1 ≤ d) (s : Bool) :
    ∃ b, generate_board rng d s = .ok b ∧ fullSudoku b (d ^ 2) d := by
  have hn : d ^ 2 = d * d := Nat.pow_two d
  have hd0 : 0 < d := hd
  have hn0 : 0 < d ^ 2 := by
    rw [hn]
    exact Nat.mul_pos hd0 hd0
  have hsufE : suffixNone
      (List.replicate (d ^ 2) (List.replicate (d ^ 2) none)) (d ^ 2) 0 0 :=
    fun i _ j _ _ => getCell_empty _ i j
  obtain ⟨b, hb⟩ := complete_board_complete rng hrng (d ^ 2 * d ^ 2 + 1)
    (c := patternBoard (d ^ 2) d) (s := s) hn (wfBoard_empty _) hn0 hn0
    hsufE (patternBoard_solution hd0 hn) (by omega)
  refine ⟨b, hb, ?_⟩
  have hpre0 : assignedBefore
      (List.replicate (d ^ 2) (List.replicate (d ^ 2) none)) (d ^ 2) 0 0 :=
    fun i _ j _ hidx => absurd hidx (by omega)
  obtain ⟨hwb, hpvb, hneb, hcirb⟩ := complete_board_sound rng hrng
    (d ^ 2 * d ^ 2 + 1) hn (wfBoard_empty _) hn0 hn0
    (validSoFar_empty _ _) hpre0 hsufE (cellsInRange_empty _) hb
  exact fullSudoku_of_parts hn hwb hpvb hneb hcirb

/-- Witness for C1: dimension 2 with the identity PRNG behaviour and
`randomize` disabled. -/
theorem claim_C1_witness :
    ∃ b, generate_board rngId 2 false = .ok b ∧ fullSudoku b (2 ^ 2) 2 :=
  claim_C1 rngId (fun _ _ _ m => List.Perm.refl m) (by decide) false


theorem rjust_length (s : String) (w : Nat) :
    (rjust s w).length = max w s.length := by
  unfold rjust
  rw [String.length_append]
  show (List.replicate (w - s.length) ' ').length + s.length = _
  rw [List.length_replicate]
  omega

theorem joinSep_length (sep : String) :
    ∀ (a : String) (rest : List String),
      (joinSep sep (a :: rest)).length
        = a.length + (rest.map String.length).sum
          + sep.length * rest.length := by
  intro a rest
  induction rest generalizing a with
  | nil =>
    show a.length = a.length + ([] : List String).length
      + sep.length * ([] : List Nat).length
    simp
  | cons b rest2 ih =>
    show (a ++ sep ++ joinSep sep (b :: rest2)).length = _
    rw [String.length_append, String.length_append, ih b]
    simp only [List.map_cons, List.sum_cons, List.length_cons, Nat.mul_succ]
    omega

theorem sum_map_const {α : Type} (l : List α) (w : Nat) :
    (l.map (fun _ => w)).sum = l.length * w := by
  induction l with
  | nil => simp
  | cons a l ih =>
    rw [List.map_cons, List.sum_cons, ih, List.length_cons]
    have h5 : (l.length + 1) * w = l.length * w + w := Nat.succ_mul _ _
    omega

theorem line_length {w : Nat} (c0 : Cell) (row : List Cell)
    (hc : ∀ c ∈ c0 :: row, (cellStr c).length ≤ w) :
    ("[" ++ joinSep ", " ((c0 :: row).map (fun c => rjust (cellStr c) w))
      ++ "]").length = (row.length + 1) * w + 2 * row.length + 2 := by
  rw [String.length_append, String.length_append, List.map_cons,
    joinSep_length]
  have hjust : ∀ c ∈ c0 :: row, (rjust (cellStr c) w).length = w := by
    intro c hcm
    rw [rjust_length]
    have := hc c hcm
    omega
  have hmap : (row.map (fun c => rjust (cellStr c) w)).map String.length
      = row.map (fun _ => w) := by
    rw [List.map_map]
    apply List.map_congr_left
    intro c hcmem
    exact hjust c (List.mem_cons_of_mem _ hcmem)
  rw [hmap, sum_map_const, List.length_map,
    hjust c0 (List.mem_cons_self c0 row)]
  have h1 : ("[" : String).length = 1 := rfl
  have h2 : ("]" : String).length = 1 := rfl
  have h3 : (", " : String).length = 2 := rfl
  rw [h1, h2, h3]
  have h5 : (row.length + 1) * w = row.length * w + w := Nat.succ_mul _ _
  omega

theorem grid_length {w C : Nat} (hC : 0 < C) (r0 : List Cell)
    (rows : List (List Cell))
    (hrows : ∀ row ∈ r0 :: rows, row.length = C ∧
      ∀ c ∈ row, (cellStr c).length ≤ w) :
    (joinSep "\n" ((r0 :: rows).map (fun row =>
      "[" ++ joinSep ", " (row.map (fun c => rjust (cellStr c) w))
        ++ "]"))).length
      = (rows.length + 1) * (C * w + 2 * (C - 1) + 2) + rows.length := by
  have hline : ∀ row ∈ r0 :: rows,
      ("[" ++ joinSep ", " (row.map (fun c => rjust (cellStr c) w))
        ++ "]").length = C * w + 2 * (C - 1) + 2 := by
    intro row hrow
    obtain ⟨hlen, hcells⟩ := hrows row hrow
    cases row with
    | nil =>
      rw [List.length_nil] at hlen
      omega
    | cons c0 rtail =>
      rw [line_length c0 rtail hcells]
      rw [List.length_cons] at hlen
      have h1 : rtail.length = C - 1 := by omega
      have h2 : C - 1 + 1 = C := by omega
      rw [h1, h2]
  rw [List.map_cons, joinSep_length]
  have hmap : ((rows).map (fun row =>
      "[" ++ joinSep ", " (row.map (fun c => rjust (cellStr c) w))
        ++ "]")).map String.length = rows.map (fun _ => C * w + 2 * (C - 1) + 2) := by
    rw [List.map_map]
    apply List.map_congr_left
    intro row hrowm
    exact hline row (List.mem_cons_of_mem _ hrowm)
  rw [hmap, sum_map_const, List.length_map,
    hline r0 (List.mem_cons_self r0 rows)]
  have h4 : ("\n" : String).length = 1 := rfl
  rw [h4]
  have h5 : (rows.length + 1) * (C * w + 2 * (C - 1) + 2)
      = rows.length * (C * w + 2 * (C - 1) + 2)
        + (C * w + 2 * (C - 1) + 2) := Nat.succ_mul _ _
  omega

/-- Shape of a generated board: every row has `n` cells, each an
assigned in-range value. -/
theorem board_cells_shape {b : Board} {n : Nat} (hw : wfBoard b n)
    (hne : ∀ i, i < n → ∀ j, j < n → getCell b i j ≠ none)
    (hcir : cellsInRange b n) :
    ∀ row ∈ b, row.length = n ∧ ∀ c ∈ row, ∃ v, v < n ∧ c = some v := by
  intro row hrow
  refine ⟨hw.2 row hrow, ?_⟩
  intro c hcmem
  obtain ⟨j, hjb, hbj⟩ := List.mem_iff_getElem.mp hrow
  obtain ⟨i, hi, hri⟩ := List.mem_iff_getElem.mp hcmem
  have hjn : j < n := by rw [← hw.1]; exact hjb
  have hin : i < n := by
    have hl := hw.2 row hrow
    omega
  have hcell : getCell b i j = c := by
    show (b.getD j []).getD i none = c
    rw [getD_eq_of_lt _ _ hjb, hbj, getD_eq_of_lt _ _ hi, hri]
  cases hc0 : c with
  | none =>
    have : getCell b i j = none := by rw [hcell, hc0]
    exact absurd this (hne i hin j hjn)
  | some v =>
    have : getCell b i j = some v := by rw [hcell, hc0]
    exact ⟨v, hcir i hin j hjn v this, rfl⟩

/-- The facts `complete_board_sound` yields about any successful
`generate_board` run. -/
theorem generate_board_facts (rng : Rng)
    (hrng : ∀ c u w m, (rng c u w m).Perm m) {d : Nat} (hd : 1 ≤ d)
    {s : Bool} {b : Board} (hb : generate_board rng d s = .ok b) :
    wfBoard b (d ^ 2) ∧ validSoFar b (d ^ 2) d ∧
      (∀ i, i < d ^ 2 → ∀ j, j < d ^ 2 → getCell b i j ≠ none) ∧
      cellsInRange b (d ^ 2) := by
  have hn : d ^ 2 = d * d := Nat.pow_two d
  have hn0 : 0 < d ^ 2 := by
    rw [hn]
    exact Nat.mul_pos hd hd
  exact complete_board_sound rng hrng (d ^ 2 * d ^ 2 + 1) hn
    (wfBoard_empty _) hn0 hn0 (validSoFar_empty _ _)
    (fun i _ j _ hidx => absurd hidx (by omega))
    (fun i _ j _ _ => getCell_empty _ i j) (cellsInRange_empty _) hb

set_option maxHeartbeats 1600000 in
/-- C10 counterexample: at dimension 10 the generation succeeds (by
the machinery of C1), and the rendered output does NOT use a column
width equal to the number of decimal digits of `N = 100` (which is 3):
the code pads to `ceil(log10(100)) = 2` columns, so the two renderings
are different strings (they even have different lengths). -/
theorem claim_C10_counterexample :
    ∃ b, generate_board rngId 10 false = .ok b ∧
      format_board b 10 ≠ renderGrid (Nat.log 10 (10 ^ 2) + 1) b := by
  have hn : (10 : Nat) ^ 2 = 10 * 10 := by norm_num
  obtain ⟨b, hb⟩ := complete_board_complete rngId
    (fun _ _ _ m => List.Perm.refl m) (10 ^ 2 * 10 ^ 2 + 1)
    (c := patternBoard (10 ^ 2) 10) (s := false) (x := 0) (y := 0)
    (b := List.replicate (10 ^ 2) (List.replicate (10 ^ 2) none))
    hn (wfBoard_empty _) (by norm_num) (by norm_num)
    (fun i _ j _ _ => getCell_empty _ i j)
    (patternBoard_solution (by norm_num) hn) (by omega)
  have hb' : generate_board rngId 10 false = .ok b := hb
  refine ⟨b, hb', ?_⟩
  obtain ⟨hwb, _, hneb, hcirb⟩ := generate_board_facts rngId
    (fun _ _ _ m => List.Perm.refl m) (d := 10) (s := false)
    (by norm_num) hb'
  have hshape := board_cells_shape hwb hneb hcirb
  have hclog : value_length 10 = 2 := by
    unfold value_length
    have h1 : Nat.clog 10 (10 ^ 2) ≤ 2 :=
      (Nat.le_pow_iff_clog_le (by norm_num)).mp (by norm_num)
    have h2 : 1 < Nat.clog 10 (10 ^ 2) :=
      (Nat.pow_lt_iff_lt_clog (by norm_num)).mp (by norm_num)
    omega
  have hlog : Nat.log 10 (10 ^ 2) + 1 = 3 := by
    have h1 : Nat.log 10 (10 ^ 2) = 2 :=
      Nat.log_eq_of_pow_le_of_lt_pow (by norm_num) (by norm_num)
    omega
  have hcells2 : ∀ row ∈ b, row.length = 10 ^ 2 ∧
      ∀ c ∈ row, (cellStr c).length ≤ 2 := by
    intro row hrow
    obtain ⟨hlen, hcl⟩ := hshape row hrow
    refine ⟨hlen, ?_⟩
    intro c hcm
    obtain ⟨v, hv, rfl⟩ := hcl c hcm
    show (Nat.repr v).length ≤ 2
    exact Nat.repr_length v 2 (by norm_num) hv
  have hcells3 : ∀ row ∈ b, row.length = 10 ^ 2 ∧
      ∀ c ∈ row, (cellStr c).length ≤ 3 := by
    intro row hrow
    obtain ⟨hlen, hcl⟩ := hcells2 row hrow
    exact ⟨hlen, fun c hcm => le_trans (hcl c hcm) (by norm_num)⟩
  intro hcon
  have hlen1 : b.length = 10 ^ 2 := hwb.1
  cases b with
  | nil =>
    rw [List.length_nil] at hlen1
    norm_num at hlen1
  | cons r0 rows =>
    have h1 : (format_board (r0 :: rows) 10).length
        = (rows.length + 1) * (10 ^ 2 * 2 + 2 * (10 ^ 2 - 1) + 2)
          + rows.length := by
      show (renderGrid (value_length 10) (r0 :: rows)).length = _
      rw [hclog]
      unfold renderGrid
      exact grid_length (by norm_num) r0 rows hcells2
    have h2 : (renderGrid (Nat.log 10 (10 ^ 2) + 1) (r0 :: rows)).length
        = (rows.length + 1) * (10 ^ 2 * 3 + 2 * (10 ^ 2 - 1) + 2)
          + rows.length := by
      rw [hlog]
      unfold renderGrid
      exact grid_length (by norm_num) r0 rows hcells3
    have heq := congrArg String.length hcon
    rw [h1, h2] at heq
    have hx1 : 10 ^ 2 * 2 + 2 * (10 ^ 2 - 1) + 2 = 400 := by norm_num
    have hx2 : 10 ^ 2 * 3 + 2 * (10 ^ 2 - 1) + 2 = 500 := by norm_num
    rw [hx1, hx2] at heq
    have hs1 : (rows.length + 1) * 400 = rows.length * 400 + 400 :=
      Nat.succ_mul _ _
    have hs2 : (rows.length + 1) * 500 = rows.length * 500 + 500 :=
      Nat.succ_mul _ _
    omega

/-- C10 (amended): for every successfully generated board of dimension
`d` (any permuting PRNG, either `randomize` setting), the rendered
output is the right-aligned fixed-width grid with one bracketed row
per line whose column width is `⌈log₁₀ N⌉` (`Nat.clog 10 (d ^ 2)`) —
the number of decimal digits of `N` except when `N` is a power of ten
(as at `d = 10`, where the code pads to 2 columns, not 3) — and for
`d ≥ 2` every rendered value indeed occupies exactly that many
characters. -/
theorem claim_C10_amended (rng : Rng)
    (hrng : ∀ c u w m, (rng c u w m).Perm m) {d : Nat} (hd : 1 ≤ d)
    {s : Bool} {b : Board} (hb : generate_board rng d s = .ok b) :
    format_board b d = renderGrid (Nat.clog 10 (d ^ 2)) b ∧
      (2 ≤ d → ∀ row ∈ b, ∀ c ∈ row,
        (rjust (cellStr c) (Nat.clog 10 (d ^ 2))).length
          = Nat.clog 10 (d ^ 2)) := by
  obtain ⟨hwb, _, hneb, hcirb⟩ := generate_board_facts rng hrng hd hb
  refine ⟨rfl, ?_⟩
  intro hd2 row hrow c hcm
  obtain ⟨hlen, hcells⟩ := board_cells_shape hwb hneb hcirb row hrow
  obtain ⟨v, hv, rfl⟩ := hcells c hcm
  have h2n : 2 ≤ d ^ 2 := by
    have h3 := Nat.mul_le_mul hd2 hd2
    rw [Nat.pow_two]
    omega
  have hw1 : 0 < Nat.clog 10 (d ^ 2) := Nat.clog_pos (by norm_num) h2n
  have hle : d ^ 2 ≤ 10 ^ Nat.clog 10 (d ^ 2) :=
    Nat.le_pow_clog (by norm_num) _
  have hrep : (Nat.repr v).length ≤ Nat.clog 10 (d ^ 2) :=
    Nat.repr_length v _ hw1 (by omega)
  rw [rjust_length]
  show max (Nat.clog 10 (d ^ 2)) (Nat.repr v).length = _
  omega

/-- Witness for the amended C10 at dimension 2. -/
theorem claim_C10_amended_witness :
    format_board demoBoard 2 = renderGrid (Nat.clog 10 (2 ^ 2)) demoBoard ∧
      (2 ≤ 2 → ∀ row ∈ demoBoard, ∀ c ∈ row,
        (rjust (cellStr c) (Nat.clog 10 (2 ^ 2))).length
          = Nat.clog 10 (2 ^ 2)) :=
  claim_C10_amended rngId (fun _ _ _ m => List.Perm.refl m) (s := false)
    (by decide) (by decide)
